import Mathlib

/-!
Verification of the bot-verdinha job-queue and crawl pipeline.

This file gives a shallow embedding of the persistent queue layer
(src/shared/queue_store.py and src/shared/download_store.py), of the
bounded-retry fetch, chapter classification, URL normalization and
upload-handoff control flow of src/download/app.py, and proves the
spec-level properties about them.

Modelling conventions:
- A SQLite table is a list of row records; `BEGIN IMMEDIATE` transactions
  execute serially, so every store operation is a pure function from the
  table (plus the current wall-clock second) to the new table and its
  return value.
- SQLite INTEGER columns that the code only ever writes from
  `int(time.time())`, counters, or sums of those are modelled as `Nat`
  (all reachable values are non-negative, and Python's
  `max(0, tries - 1)` coincides with truncated `Nat` subtraction).
- `NULL`-able columns are `Option` fields; columns declared `NOT NULL
  DEFAULT ...` are plain fields.
- JSON payloads are carried as opaque strings: the code never inspects
  them in the operations verified here.
-/

/-- Row of the `jobs` table of src/shared/queue_store.py (dataclass `Job`).
`status` ranges over "queued" | "processing" | "done" | "failed". -/
structure Job where
  id : String
  obra_nome : String
  pasta : String
  payload_json : String
  status : String
  tries : Nat
  last_error : Option String
  created_at : Nat
  updated_at : Nat
  available_at : Option Nat
  processing_started_at : Option Nat
  worker_id : Option String
  heartbeat_at : Option Nat
deriving DecidableEq

/-- `_compute_backoff_seconds` of src/shared/queue_store.py:
`min(60 * 2 ** max(0, tries - 1), 3600)`.  With `tries : Nat`,
truncated subtraction `tries - 1` equals Python's `max(0, tries - 1)`. -/
def compute_backoff_seconds (tries : Nat) : Nat :=
  min (60 * 2 ^ (tries - 1)) 3600

namespace QueueStore

/-- `QueueStore.enqueue`: if a row with this id exists and is `done`,
nothing changes; if it exists otherwise, the row's obra_nome/pasta/payload
are overwritten, status reset to `queued`, `available_at` cleared; else a
fresh `queued` row is inserted with `created_at = updated_at = now`. -/
def enqueue (now : Nat) (job_id obra_nome pasta payload_json : String)
    (s : List Job) : List Job :=
  match s.find? (fun r => r.id == job_id) with
  | some r =>
    if r.status = ("done" : String) then s
    else s.map (fun x =>
      if x.id = job_id then
        { x with obra_nome := obra_nome, pasta := pasta,
                 payload_json := payload_json, status := ("queued" : String),
                 updated_at := now, available_at := none }
      else x)
  | none =>
    s ++ [{ id := job_id, obra_nome := obra_nome, pasta := pasta,
            payload_json := payload_json, status := ("queued" : String),
            tries := 0, last_error := none, created_at := now,
            updated_at := now, available_at := none,
            processing_started_at := none, worker_id := none,
            heartbeat_at := none }]

/-- The `WHERE` clause of `claim_next`'s `SELECT`:
`status='queued' AND (available_at IS NULL OR available_at <= now)`. -/
def claim_eligible (now : Nat) (r : Job) : Bool :=
  r.status == ("queued" : String) &&
    (match r.available_at with
     | none => true
     | some a => decide (a ≤ now))

/-- `ORDER BY created_at ASC LIMIT 1` over the eligible rows: the eligible
row with minimal `created_at` (first such row on ties). -/
def select_oldest (now : Nat) (s : List Job) : Option Job :=
  s.foldl (fun acc r =>
    if claim_eligible now r then
      match acc with
      | none => some r
      | some b => if r.created_at < b.created_at then some r else acc
    else acc) none

/-- The row update performed by `claim_next` on the selected job. -/
def claim_update (now : Nat) (wid : String) (x : Job) : Job :=
  { x with status := ("processing" : String), updated_at := now,
           processing_started_at := some now, worker_id := some wid,
           heartbeat_at := some now }

/-- `QueueStore.claim_next`: inside one transaction, select the oldest
eligible `queued` row, flip it to `processing` with this worker's id and
fresh heartbeat, and return the updated row (the code re-reads the row by
primary key after the commit). -/
def claim_next (now : Nat) (wid : String) (s : List Job) :
    Option Job × List Job :=
  match select_oldest now s with
  | none => (none, s)
  | some r =>
    (some (claim_update now wid r),
     s.map (fun x => if x.id = r.id then claim_update now wid x else x))

/-- `QueueStore.mark_done`: unconditional `UPDATE ... WHERE id=?` setting
status `done` and clearing worker/heartbeat/processing_started fields. -/
def mark_done (now : Nat) (job_id : String) (s : List Job) : List Job :=
  s.map (fun x =>
    if x.id = job_id then
      { x with status := ("done" : String), updated_at := now,
               worker_id := none, heartbeat_at := none,
               processing_started_at := none }
    else x)

/-- `QueueStore.mark_failed`: reads the row's `tries`, adds 1, and either
requeues with a backoff `available_at` (when `requeue` and
`tries < max_tries`) or marks the row terminally `failed`.  Returns
`(tries, final status)` together with the new table. -/
def mark_failed (now : Nat) (job_id error : String) (requeue : Bool)
    (max_tries : Nat) (s : List Job) : (Nat × String) × List Job :=
  let tries := (match s.find? (fun r => r.id == job_id) with
                | some r => r.tries
                | none => 0) + 1
  let st := if requeue ∧ tries < max_tries then ("queued" : String)
            else ("failed" : String)
  let avail := if requeue ∧ tries < max_tries
               then some (now + compute_backoff_seconds tries) else none
  ((tries, st),
   s.map (fun x =>
     if x.id = job_id then
       { x with tries := tries, last_error := some error, status := st,
                available_at := avail, updated_at := now,
                worker_id := none, heartbeat_at := none,
                processing_started_at := none }
     else x))

/-- The `WHERE` clause of `reclaim_stale_processing`'s `SELECT`:
`status='processing' AND (heartbeat_at IS NULL OR heartbeat_at < cutoff)`
with `cutoff = now - timeout_seconds`. -/
def stale_check (now timeout_seconds : Nat) (r : Job) : Bool :=
  r.status == ("processing" : String) &&
    (match r.heartbeat_at with
     | none => true
     | some h => decide (h < now - timeout_seconds))

/-- The row update applied to each reclaimed job by
`reclaim_stale_processing`. -/
def reclaim_update (now : Nat) (x : Job) : Job :=
  { x with status := ("queued" : String), worker_id := none,
           processing_started_at := none, heartbeat_at := none,
           available_at := some (now + 30), updated_at := now,
           last_error := some ((x.last_error.getD ("" : String)) ++
             ("\n[reclaim] processing órfão em " : String) ++ toString now) }

/-- `QueueStore.reclaim_stale_processing`: selects the stale `processing`
rows, then re-queues each by primary key, returning how many. -/
def reclaim_stale_processing (now timeout_seconds : Nat) (s : List Job) :
    Nat × List Job :=
  let stale := s.filter (stale_check now timeout_seconds)
  let ids := stale.map (fun r => r.id)
  (stale.length,
   s.map (fun x => if ids.contains x.id then reclaim_update now x else x))

end QueueStore

/-- Row of the `download_jobs` table of src/shared/download_store.py
(dataclass `DownloadJob`).  `status` ranges over
"queued" | "downloading" | "validating" | "done" | "failed". -/
structure DownloadJob where
  id : Nat
  job_id : String
  url : String
  nome : String
  pasta : String
  expected_total : Nat
  batch_size : Nat
  status : String
  tries : Nat
  available_at : Nat
  last_error : String
  result_json : String
  summary_json : String
  worker_id : String
  processing_started_at : Nat
  heartbeat_at : Nat
  chapter : Nat
  progress : Nat
  total_images : Nat
  state : String
  created_at : Nat
  updated_at : Nat
deriving DecidableEq

/-- The `download_jobs` table plus the `AUTOINCREMENT` counter for `id`. -/
structure DState where
  rows : List DownloadJob
  nextId : Nat
deriving DecidableEq

namespace DownloadQueueStore

/-- `DownloadQueueStore.enqueue`: `INSERT OR IGNORE` keyed on the UNIQUE
`job_id` column — when a row with this `job_id` already exists the insert
is ignored and the table is unchanged, whatever the existing row's status;
otherwise a fresh `queued` row with the schema defaults is appended.
The caller-supplied `job_id` is returned (the code substitutes a fresh
uuid4 when the caller passes none; we take the final id as argument). -/
def enqueue (now : Nat) (url nome pasta : String)
    (expected_total batch_size : Nat) (job_id : String)
    (st : DState) : String × DState :=
  if st.rows.any (fun r => r.job_id == job_id) then (job_id, st)
  else
    (job_id,
     { rows := st.rows ++
         [{ id := st.nextId, job_id := job_id, url := url, nome := nome,
            pasta := pasta, expected_total := expected_total,
            batch_size := batch_size, status := ("queued" : String),
            tries := 0, available_at := now, last_error := ("" : String),
            result_json := ("" : String), summary_json := ("" : String),
            worker_id := ("" : String), processing_started_at := 0,
            heartbeat_at := 0, chapter := 0, progress := 0,
            total_images := 0, state := ("idle" : String),
            created_at := now, updated_at := now }],
       nextId := st.nextId + 1 })

/-- The `WHERE` clause of `claim_next`'s `SELECT`:
`status='queued' AND available_at <= now`. -/
def claim_eligible (now : Nat) (r : DownloadJob) : Bool :=
  r.status == ("queued" : String) && decide (r.available_at ≤ now)

/-- `ORDER BY created_at ASC LIMIT 1` over the eligible rows. -/
def select_oldest (now : Nat) (s : List DownloadJob) : Option DownloadJob :=
  s.foldl (fun acc r =>
    if claim_eligible now r then
      match acc with
      | none => some r
      | some b => if r.created_at < b.created_at then some r else acc
    else acc) none

/-- The `SET` part of `claim_next`'s guarded `UPDATE`. -/
def claim_update (now : Nat) (wid : String) (x : DownloadJob) : DownloadJob :=
  { x with status := ("downloading" : String), worker_id := wid,
           processing_started_at := now, heartbeat_at := now,
           state := ("starting" : String), updated_at := now }

/-- `DownloadQueueStore.claim_next`: select the oldest eligible `queued`
row by id, then `UPDATE ... WHERE id=? AND status='queued' RETURNING *`
flips it to `downloading` and returns the updated row. -/
def claim_next (now : Nat) (wid : String) (st : DState) :
    Option DownloadJob × DState :=
  match select_oldest now st.rows with
  | none => (none, st)
  | some r =>
    if r.status = ("queued" : String) then
      (some (claim_update now wid r),
       { st with rows := st.rows.map (fun x =>
           if x.id = r.id ∧ x.status = ("queued" : String)
           then claim_update now wid x else x) })
    else (none, st)

/-- `DownloadQueueStore.mark_done`: unconditional `UPDATE ... WHERE
job_id=?` — sets status `done`, state `completed` and stores the result
and summary JSON.  It does NOT touch `worker_id` or `heartbeat_at`. -/
def mark_done (now : Nat) (job_id result_json summary_json : String)
    (st : DState) : DState :=
  { st with rows := st.rows.map (fun x =>
      if x.job_id = job_id then
        { x with status := ("done" : String), state := ("completed" : String),
                 result_json := result_json, summary_json := summary_json,
                 updated_at := now }
      else x) }

/-- `DownloadQueueStore.mark_failed`: re-queues the row with
`tries = tries + 1`, a truncated error text and a caller-chosen
`available_at` (the retryable-failure path). -/
def mark_failed (now : Nat) (job_id error : String) (next_available_at : Nat)
    (st : DState) : DState :=
  { st with rows := st.rows.map (fun x =>
      if x.job_id = job_id then
        { x with status := ("queued" : String), tries := x.tries + 1,
                 last_error := error.take 2000,
                 available_at := next_available_at,
                 state := ("error" : String), updated_at := now }
      else x) }

/-- `DownloadQueueStore.fail_permanently`: terminal `failed` with
`tries = tries + 1`. -/
def fail_permanently (now : Nat) (job_id error : String)
    (st : DState) : DState :=
  { st with rows := st.rows.map (fun x =>
      if x.job_id = job_id then
        { x with status := ("failed" : String), tries := x.tries + 1,
                 last_error := error.take 2000,
                 state := ("failed" : String), updated_at := now }
      else x) }

/-- The `WHERE` clause of `reclaim_stale_downloading`:
`status IN ('downloading','validating') AND heartbeat_at > 0 AND
heartbeat_at < cutoff` with `cutoff = now - timeout_seconds`. -/
def stale_check (now timeout_seconds : Nat) (r : DownloadJob) : Bool :=
  (r.status == ("downloading" : String) ||
   r.status == ("validating" : String)) &&
    decide (0 < r.heartbeat_at) &&
    decide (r.heartbeat_at < now - timeout_seconds)

/-- The `SET` part of `reclaim_stale_downloading`'s single `UPDATE`. -/
def reclaim_update (now : Nat) (x : DownloadJob) : DownloadJob :=
  { x with status := ("queued" : String), worker_id := ("" : String),
           processing_started_at := 0, heartbeat_at := 0,
           state := ("reclaimed" : String), available_at := now + 5,
           updated_at := now }

/-- `DownloadQueueStore.reclaim_stale_downloading`: one `UPDATE` over all
stale active rows; returns the affected row count (`cur.rowcount`). -/
def reclaim_stale_downloading (now timeout_seconds : Nat) (st : DState) :
    Nat × DState :=
  ((st.rows.filter (stale_check now timeout_seconds)).length,
   { st with rows := st.rows.map (fun x =>
       if stale_check now timeout_seconds x then reclaim_update now x
       else x) })

end DownloadQueueStore

/-!  src/download/app.py models  -/

/-- Outcome of one attempt of `download_with_retry`
(src/download/app.py, lines 351-416):
either the HTTP request/streaming raises (`netError`), the Content-Type
check raises before the temporary file is opened (`badContentType`), or a
body of `size` bytes is streamed into the `.tmp` file (`body size`; a
subsequent mid-stream failure behaves like `netError` because the except
branch removes the temporary file either way). -/
inductive FetchOutcome where
  | netError : FetchOutcome
  | badContentType : FetchOutcome
  | body : Nat → FetchOutcome
deriving DecidableEq

/-- An attempt succeeds exactly when a non-empty body is streamed:
`total_size == 0` raises "Arquivo vazio recebido" and is retried. -/
def fetch_success : FetchOutcome → Bool
  | FetchOutcome.body n => decide (0 < n)
  | _ => false

/-- The two filesystem locations `download_with_retry` touches: the final
destination path and its `.tmp` sibling.  `some n` is a file of `n`
bytes, `none` is absence. -/
structure FsState where
  dest : Option Nat
  tmp : Option Nat
deriving DecidableEq

/-- `download_with_retry` of src/download/app.py as a fold over the
per-attempt outcomes (the list length plays the role of `max_retries`):
on a non-empty body the `.tmp` file is written and atomically renamed
onto the destination and the call returns `True`; on any failure the
except branch removes the `.tmp` file (whether or not this attempt or an
earlier caller created it) and the next attempt runs; after the last
attempt the call returns `False` — it never raises. -/
def download_with_retry : List FetchOutcome → FsState → Bool × FsState
  | [], st => (false, st)
  | o :: rest, st =>
    match o with
    | FetchOutcome.body n =>
      if 0 < n then (true, { dest := some n, tmp := none })
      else download_with_retry rest { st with tmp := none }
    | _ => download_with_retry rest { st with tmp := none }

/-- Chapter classification of src/download/app.py line 1179:
`'ok' if found_n >= MIN_IMAGES_PER_CHAPTER else ('partial' if found_n >=
MIN_IMAGES_PARTIAL else 'broken')`, with the thresholds taken from the
environment (defaults `MIN_IMAGES_PER_CHAPTER = 3`,
`MIN_IMAGES_PARTIAL = 1`, lines 113-115). -/
def chapter_classify (min_images_per_chapter min_images_partial found_n : Nat) :
    String :=
  if min_images_per_chapter ≤ found_n then ("ok" : String)
  else if min_images_partial ≤ found_n then ("partial" : String)
  else ("broken" : String)

/-- Default thresholds (`VERDINHA_MIN_IMAGES_PER_CHAPTER` = 3,
`VERDINHA_MIN_IMAGES_PARTIAL` = 1). -/
def MIN_IMAGES_PER_CHAPTER : Nat := 3

def MIN_IMAGES_PARTIAL : Nat := 1

/-- The guard of the mid-crawl upload handoff in `run_download_bot`
(src/download/app.py line 1417): `if not upload_enqueued and
len(capitulos_baixados) >= 1`.  `initial_flag` is
`bool(progress_data.get('upload_enqueued'))` loaded from the checkpoint
(line 888); once the guard fires the flag is set and persisted, so within
one invocation it fires at most on the first chapter boundary where the
condition holds. -/
def guarded_upload_call (initial_flag : Bool) (chapters : Nat) : Bool :=
  !initial_flag && decide (1 ≤ chapters)

/-- How many times one invocation of `run_download_bot` calls
`adicionar_fila_upload` for its target: once through the guarded
mid-crawl handoff (line 1418) and — unconditionally — once more on the
completion path (line 1560, reached exactly when the job ends with no
stop reason). -/
def upload_enqueue_call_count (initial_flag : Bool) (chapters : Nat)
    (completed : Bool) : Nat :=
  (if guarded_upload_call initial_flag chapters then 1 else 0) +
    (if completed then 1 else 0)

/-- The effect of those `adicionar_fila_upload` calls on the upload
queue: each call enqueues into the `QueueStore` under the stable job id
`job.get('job_id') or job.get('id')` (src/download/app.py lines 191-205),
so within one invocation both calls use the same `job_id`. -/
def run_upload_enqueues (initial_flag : Bool) (chapters : Nat)
    (completed : Bool) (now1 now2 : Nat) (jid obra pasta payload : String)
    (s : List Job) : List Job :=
  let s1 := if guarded_upload_call initial_flag chapters
            then QueueStore.enqueue now1 jid obra pasta payload s else s
  if completed then QueueStore.enqueue now2 jid obra pasta payload s1 else s1

/-- Number of upload-queue rows carrying a given job id. -/
def count_by_id (jid : String) (s : List Job) : Nat :=
  (s.filter (fun r => r.id == jid)).length

/-!
URL normalization (`normalize_url`, src/download/app.py lines 127-146).

The Python function is a thin composition of `urllib.parse` primitives;
we embed those primitives over `List Char`, following their CPython
sources.  Model boundary (documented, outside every property proved
here): percent-escapes are decoded/encoded byte-per-character (exact for
ASCII, where CPython's UTF-8 round-trip is the identity); the stdlib's
bracketed-IPv6-host validation and the non-ASCII netloc check are not
modelled (no claim input or well-formedness class contains brackets or
non-ASCII characters).
-/

/-- Split a list at the first occurrence of `sep`
(Python `str.split(sep, 1)` when it succeeds). -/
def splitOnFirst (sep : Char) : List Char → Option (List Char × List Char)
  | [] => none
  | c :: t =>
    if c = sep then some ([], t)
    else (splitOnFirst sep t).map (fun p => (c :: p.1, p.2))

/-- `urlsplit` first lstrips WHATWG C0-control-or-space characters. -/
def isC0OrSpace (c : Char) : Bool := decide (c.toNat ≤ 32)

/-- `_UNSAFE_URL_BYTES_TO_REMOVE`: tab, CR, LF are removed everywhere. -/
def isUnsafeUrlByte (c : Char) : Bool := c = '\t' || c = '\r' || c = '\n'

/-- The input sanitation at the top of `urlsplit`. -/
def cleanUrl (u : List Char) : List Char :=
  (u.dropWhile isC0OrSpace).filter (fun c => !isUnsafeUrlByte c)

def isAsciiUpper (c : Char) : Bool := decide ('A' ≤ c) && decide (c ≤ 'Z')

def isAsciiLower (c : Char) : Bool := decide ('a' ≤ c) && decide (c ≤ 'z')

def isAsciiAlpha (c : Char) : Bool := isAsciiLower c || isAsciiUpper c

def isAsciiDigit (c : Char) : Bool := decide ('0' ≤ c) && decide (c ≤ '9')

/-- `scheme_chars` of urllib.parse. -/
def isSchemeChar (c : Char) : Bool :=
  isAsciiAlpha c || isAsciiDigit c || c = '+' || c = '-' || c = '.'

/-- ASCII `str.lower` on one character (schemes are validated ASCII
before being lowercased). -/
def lowerChar (c : Char) : Char :=
  if isAsciiUpper c then Char.ofNat (c.toNat + 32) else c

/-- The scheme detection of `urlsplit`: split at the first ':' when the
part before it is non-empty, starts with an ASCII letter and consists of
scheme characters; the scheme is lowercased. -/
def splitScheme (u : List Char) : List Char × List Char :=
  match splitOnFirst ':' u with
  | some (pre, post) =>
    if !pre.isEmpty && isAsciiAlpha (pre.headD ' ') && pre.all isSchemeChar
    then (pre.map lowerChar, post)
    else ([], u)
  | none => ([], u)

/-- `_splitnetloc`: the netloc runs until the first of '/', '?', '#'. -/
def notNetlocEnd (c : Char) : Bool := !(c = '/' || c = '?' || c = '#')

/-- Result record of `urlsplit`. -/
structure UrlParts where
  scheme : List Char
  netloc : List Char
  path : List Char
  query : List Char
  fragment : List Char
deriving DecidableEq

/-- The netloc stage of `urlsplit`: after a leading '//' the netloc runs
until the first '/', '?' or '#'; otherwise there is no netloc. -/
def urlsplitNetloc (u1 : List Char) : List Char × List Char :=
  if u1.take 2 = [('/' : Char), ('/' : Char)]
  then ((u1.drop 2).takeWhile notNetlocEnd,
        (u1.drop 2).dropWhile notNetlocEnd)
  else ([], u1)

/-- The fragment stage of `urlsplit`: `url.split('#', 1)` when '#'
occurs. -/
def splitFragment (u : List Char) : List Char × List Char :=
  match splitOnFirst '#' u with
  | some p => p
  | none => (u, [])

/-- The query stage of `urlsplit`: `url.split('?', 1)` when '?'
occurs. -/
def splitQuery (u : List Char) : List Char × List Char :=
  match splitOnFirst '?' u with
  | some p => p
  | none => (u, [])

/-- `urllib.parse.urlsplit` (allow_fragments=True): sanitize, split the
scheme, take the netloc after a leading '//', reject a bracket-unbalanced
netloc (`Invalid IPv6 URL`), then split off fragment and query. -/
def urlsplitE (u : List Char) : Except String UrlParts :=
  let sp := splitScheme (cleanUrl u)
  let np := urlsplitNetloc sp.2
  if (np.1.contains '[' != np.1.contains ']') then
    Except.error ("Invalid IPv6 URL")
  else
    let fp := splitFragment np.2
    let qp := splitQuery fp.1
    Except.ok { scheme := sp.1, netloc := np.1, path := qp.1,
                query := qp.2, fragment := fp.2 }

/-- Hexadecimal digit value, if any (as in `urllib.parse.unquote`). -/
def hexVal? (c : Char) : Option Nat :=
  if isAsciiDigit c then some (c.toNat - ('0' : Char).toNat)
  else if decide ('a' ≤ c) && decide (c ≤ 'f') then
    some (c.toNat - ('a' : Char).toNat + 10)
  else if decide ('A' ≤ c) && decide (c ≤ 'F') then
    some (c.toNat - ('A' : Char).toNat + 10)
  else none

/-- `urllib.parse.unquote`, byte-per-character: each valid `%XX` escape
becomes the character with that code, an invalid escape stays literal. -/
def unquoteChars : List Char → List Char
  | '%' :: h1 :: h2 :: rest =>
    match hexVal? h1, hexVal? h2 with
    | some a, some b => Char.ofNat (16 * a + b) :: unquoteChars rest
    | _, _ => '%' :: unquoteChars (h1 :: h2 :: rest)
  | c :: rest => c :: unquoteChars rest
  | [] => []

/-- `parse_qsl` first replaces '+' by space in each name and value. -/
def plusToSpace (c : Char) : Char := if c = '+' then ' ' else c

/-- Decode one name-or-value of a query pair. -/
def pyUnquote (l : List Char) : List Char :=
  unquoteChars (l.map plusToSpace)

/-- `str.split(sep)` (all pieces). -/
def splitAll (sep : Char) : List Char → List (List Char)
  | [] => [[]]
  | c :: t =>
    if c = sep then [] :: splitAll sep t
    else
      match splitAll sep t with
      | [] => [[c]]
      | a :: rest => (c :: a) :: rest

/-- `urllib.parse.parse_qsl(qs, keep_blank_values=True)`: split on '&',
drop empty chunks, split each chunk at the first '=' (a chunk without '='
keeps a blank value), '+'-to-space and percent-decode both sides. -/
def parseQslPairs (qs : List Char) : List (List Char × List Char) :=
  if qs.isEmpty then []
  else (splitAll '&' qs).filterMap (fun chunk =>
    if chunk.isEmpty then none
    else match splitOnFirst '=' chunk with
         | some p => some (pyUnquote p.1, pyUnquote p.2)
         | none => some (pyUnquote chunk, pyUnquote []))

/-- The `always_safe` characters of `urllib.parse.quote`. -/
def isAlwaysSafe (c : Char) : Bool :=
  isAsciiAlpha c || isAsciiDigit c || c = '_' || c = '.' || c = '-' || c = '~'

/-- Upper-case hexadecimal digit (argument below 16 at every use). -/
def hexDigitChar (n : Nat) : Char :=
  if n < 10 then Char.ofNat (('0' : Char).toNat + n)
  else Char.ofNat (('A' : Char).toNat + (n - 10))

/-- `urllib.parse.quote_plus` on one character: safe characters pass,
space becomes '+', anything else becomes `%XX`. -/
def quotePlusChar (c : Char) : List Char :=
  if isAlwaysSafe c then [c]
  else if c = ' ' then ['+']
  else ['%', hexDigitChar ((c.toNat / 16) % 16), hexDigitChar (c.toNat % 16)]

/-- `urllib.parse.quote_plus` on a string. -/
def quotePlus (l : List Char) : List Char :=
  (l.map quotePlusChar).flatten

/-- `'&'.join`-style interleaving used by `urlencode`. -/
def joinAmp : List (List Char) → List Char
  | [] => []
  | [x] => x
  | x :: y :: t => x ++ '&' :: joinAmp (y :: t)

/-- `urllib.parse.urlencode(pairs, doseq=True)` for string pairs:
`quote_plus(k) + '=' + quote_plus(v)` joined by '&'. -/
def urlencodePairs (ps : List (List Char × List Char)) : List Char :=
  joinAmp (ps.map (fun p => quotePlus p.1 ++ '=' :: quotePlus p.2))

/-- `uses_netloc` of urllib.parse. -/
def usesNetloc : List (List Char) :=
  [[], ("ftp" : String).data, ("http" : String).data,
   ("gopher" : String).data, ("nntp" : String).data,
   ("telnet" : String).data, ("imap" : String).data,
   ("wais" : String).data, ("file" : String).data, ("mms" : String).data,
   ("https" : String).data, ("shttp" : String).data,
   ("snews" : String).data, ("prospero" : String).data,
   ("rtsp" : String).data, ("rtsps" : String).data,
   ("rtspu" : String).data, ("rsync" : String).data,
   ("svn" : String).data, ("svn+ssh" : String).data,
   ("sftp" : String).data, ("nfs" : String).data, ("git" : String).data,
   ("git+ssh" : String).data, ("ws" : String).data, ("wss" : String).data]

/-- `urllib.parse.urlunsplit`. -/
def urlunsplitChars (scheme netloc path query fragment : List Char) :
    List Char :=
  let url := path
  let url :=
    if netloc ≠ [] ∨ (scheme ≠ [] ∧ scheme ∈ usesNetloc ∧
        url.take 2 ≠ [('/' : Char), ('/' : Char)]) then
      let url1 := if url ≠ [] ∧ url.take 1 ≠ [('/' : Char)]
                  then '/' :: url else url
      '/' :: '/' :: (netloc ++ url1)
    else url
  let url := if scheme ≠ [] then scheme ++ ':' :: url else url
  let url := if query ≠ [] then url ++ '?' :: query else url
  if fragment ≠ [] then url ++ '#' :: fragment else url

/-- The tracking-parameter names dropped by `normalize_url`
(besides the `utm_` name family). -/
def trackerKeys : List (List Char) :=
  [("ref" : String).data, ("fbclid" : String).data,
   ("gclid" : String).data, ("mc_cid" : String).data,
   ("mc_eid" : String).data]

/-- The query-pair filter of `normalize_url`: drop a pair whose
lowercased key starts with `utm_` or is a known tracking key. -/
def keepQueryPair (p : List Char × List Char) : Bool :=
  let lk := p.1.map lowerChar
  !(List.isPrefixOf (("utm_" : String).data) lk || trackerKeys.contains lk)

/-- `normalize_url` of src/download/app.py: empty input maps to empty;
otherwise urlsplit, drop the fragment, drop tracking query parameters,
re-encode the query and unsplit.  When `urlsplit` raises, the except
branch returns `url.split('#', 1)[0]`. -/
def normalizeUrlChars (u : List Char) : List Char :=
  if u.isEmpty then []
  else
    match urlsplitE u with
    | Except.error _ =>
      match splitOnFirst '#' u with
      | some p => p.1
      | none => u
    | Except.ok parts =>
      urlunsplitChars parts.scheme parts.netloc parts.path
        (urlencodePairs ((parseQslPairs parts.query).filter keepQueryPair)) []

/-- `normalize_url` on `String`. -/
def normalize_url (s : String) : String :=
  String.mk (normalizeUrlChars s.data)

/-- Printable-ASCII character (no controls, no space, below DEL): the
character class over which the byte-level percent-escape model is exact
and `urlsplit`'s input sanitation is the identity. -/
def CleanChar (c : Char) : Prop := 32 < c.toNat ∧ c.toNat < 128

instance (c : Char) : Decidable (CleanChar c) :=
  inferInstanceAs (Decidable (32 < c.toNat ∧ c.toNat < 128))

/-- A well-formed authority URL: printable ASCII and `urlsplit` parses it
with a non-empty netloc (the `scheme://host/...` shape). -/
def WfAuthorityUrl (u : List Char) : Prop :=
  (∀ c ∈ u, CleanChar c) ∧
  ∃ parts, urlsplitE u = Except.ok parts ∧ parts.netloc ≠ []

/-- The path component a URL parses to (`[]` when parsing fails). -/
def pathOf (u : List Char) : List Char :=
  match urlsplitE u with
  | Except.ok parts => parts.path
  | Except.error _ => []

/-!  Concrete fixture rows used by witness and counterexample theorems. -/

/-- A plain queued upload-queue row. -/
def jqueued : Job :=
  { id := ("q1" : String), obra_nome := ("o" : String),
    pasta := ("p" : String), payload_json := ("pl" : String),
    status := ("queued" : String), tries := 0, last_error := none,
    created_at := 5, updated_at := 5, available_at := none,
    processing_started_at := none, worker_id := none, heartbeat_at := none }

/-- An upload-queue row currently owned by worker "w". -/
def jproc : Job :=
  { jqueued with
    id := ("p1" : String), status := ("processing" : String),
    worker_id := some ("w" : String), processing_started_at := some 10,
    heartbeat_at := some 10, tries := 2, created_at := 1 }

/-- A plain queued download-queue row. -/
def djq : DownloadJob :=
  { id := 1, job_id := ("d1" : String), url := ("u" : String),
    nome := ("n" : String), pasta := ("p" : String), expected_total := 0,
    batch_size := 0, status := ("queued" : String), tries := 0,
    available_at := 0, last_error := ("" : String),
    result_json := ("" : String), summary_json := ("" : String),
    worker_id := ("" : String), processing_started_at := 0,
    heartbeat_at := 0, chapter := 0, progress := 0, total_images := 0,
    state := ("idle" : String), created_at := 5, updated_at := 5 }

/-- A download-queue row being downloaded by worker "w". -/
def djw : DownloadJob :=
  { djq with
    id := 2, job_id := ("d2" : String),
    status := ("downloading" : String), worker_id := ("w" : String),
    heartbeat_at := 10, created_at := 1 }

/-- A failed download-queue row (job_id "j", url "a"). -/
def djf : DownloadJob :=
  { djq with
    id := 3, job_id := ("j" : String), url := ("a" : String),
    status := ("failed" : String) }

/-!  Shared helper lemmas.  -/

/-- `find?` commutes with a map that does not change the search key. -/
theorem find?_map_key {α : Type} (f : α → α) (p : α → Bool)
    (hf : ∀ x, p (f x) = p x) :
    ∀ s : List α, (s.map f).find? p = (s.find? p).map f := by
  intro s
  induction s with
  | nil => rfl
  | cons x t ih =>
    by_cases h : p x = true
    · rw [List.map_cons, List.find?_cons_of_pos _ (by rw [hf]; exact h),
        List.find?_cons_of_pos _ h]
      rfl
    · rw [List.map_cons,
        List.find?_cons_of_neg _ (by rw [hf]; exact h),
        List.find?_cons_of_neg _ h, ih]

/-- `filter` commutes with a map that does not change the filter key. -/
theorem filter_map_key {α : Type} (f : α → α) (p : α → Bool)
    (hf : ∀ x, p (f x) = p x) :
    ∀ s : List α, (s.map f).filter p = (s.filter p).map f := by
  intro s
  induction s with
  | nil => rfl
  | cons x t ih =>
    simp only [List.map_cons, List.filter_cons, hf x]
    by_cases h : p x = true
    · simp [h, ih]
    · simp [h, ih]

/-- Mapping over the table preserves every per-id row count when the map
preserves ids. -/
theorem count_by_id_map (f : Job → Job) (hf : ∀ x, (f x).id = x.id)
    (jid : String) (s : List Job) :
    count_by_id jid (s.map f) = count_by_id jid s := by
  unfold count_by_id
  rw [filter_map_key f (fun r => r.id == jid) (fun y => by simp [hf y]) s,
    List.length_map]

/-- An empty per-id count means `find?` by that id fails. -/
theorem count_by_id_zero_find (jid : String) (s : List Job)
    (h : count_by_id jid s = 0) :
    s.find? (fun r => r.id == jid) = none := by
  rw [List.find?_eq_none]
  intro x hx hpx
  have : x ∈ s.filter (fun r => r.id == jid) := List.mem_filter.mpr ⟨hx, hpx⟩
  have := List.length_pos.mpr (List.ne_nil_of_mem this)
  unfold count_by_id at h
  omega

/-!  Claim theorems.  -/

/-- Claim C8: with the default thresholds `partial_min = 1`, `ok_min = 3`,
the chapter classification maps a count n to "ok" when 3 ≤ n, to
"partial" when 1 ≤ n < 3, and to "broken" when n < 1; in particular the
counts 0,1,2,3,5 classify as broken, partial, partial, ok, ok. -/
theorem c8_classification_thresholds :
    (∀ n, 3 ≤ n →
      chapter_classify MIN_IMAGES_PER_CHAPTER MIN_IMAGES_PARTIAL n =
        ("ok" : String)) ∧
    (∀ n, 1 ≤ n → n < 3 →
      chapter_classify MIN_IMAGES_PER_CHAPTER MIN_IMAGES_PARTIAL n =
        ("partial" : String)) ∧
    (∀ n, n < 1 →
      chapter_classify MIN_IMAGES_PER_CHAPTER MIN_IMAGES_PARTIAL n =
        ("broken" : String)) ∧
    ([0, 1, 2, 3, 5].map
        (chapter_classify MIN_IMAGES_PER_CHAPTER MIN_IMAGES_PARTIAL) =
      [("broken" : String), ("partial" : String), ("partial" : String),
       ("ok" : String), ("ok" : String)]) := by
  refine ⟨?_, ?_, ?_, by rfl⟩
  · intro n h
    unfold chapter_classify MIN_IMAGES_PER_CHAPTER MIN_IMAGES_PARTIAL
    rw [if_pos h]
  · intro n h1 h3
    unfold chapter_classify MIN_IMAGES_PER_CHAPTER MIN_IMAGES_PARTIAL
    rw [if_neg (by omega), if_pos h1]
  · intro n h
    unfold chapter_classify MIN_IMAGES_PER_CHAPTER MIN_IMAGES_PARTIAL
    rw [if_neg (by omega), if_neg (by omega)]

/-- Witness for C8 at the concrete count 4. -/
theorem c8_classification_thresholds_witness :
    chapter_classify MIN_IMAGES_PER_CHAPTER MIN_IMAGES_PARTIAL 4 =
      ("ok" : String) :=
  c8_classification_thresholds.1 4 (by decide)

/-- Auxiliary invariant of `download_with_retry`: starting with no
temporary file, the call leaves no temporary file, only ever installs a
non-empty destination, and reports `false` without touching the
destination when every attempt fails. -/
theorem download_with_retry_aux :
    ∀ (outs : List FetchOutcome) (st : FsState), st.tmp = none →
      ((download_with_retry outs st).2.tmp = none) ∧
      ((download_with_retry outs st).2.dest = st.dest ∨
        ∃ n, 0 < n ∧ (download_with_retry outs st).2.dest = some n) ∧
      ((∀ o ∈ outs, fetch_success o = false) →
        (download_with_retry outs st).1 = false ∧
        (download_with_retry outs st).2.dest = st.dest) := by
  intro outs
  induction outs with
  | nil =>
    intro st hst
    exact ⟨hst, Or.inl rfl, fun _ => ⟨rfl, rfl⟩⟩
  | cons o rest ih =>
    intro st hst
    cases o with
    | body n =>
      by_cases hn : 0 < n
      · refine ⟨?_, ?_, ?_⟩
        · simp [download_with_retry, hn]
        · right
          exact ⟨n, hn, by simp [download_with_retry, hn]⟩
        · intro hfail
          have := hfail (FetchOutcome.body n) (List.mem_cons_self _ _)
          simp [fetch_success, hn] at this
      · have hstep : download_with_retry (FetchOutcome.body n :: rest) st =
            download_with_retry rest { st with tmp := none } := by
          simp [download_with_retry, hn]
        obtain ⟨h1, h2, h3⟩ := ih { st with tmp := none } rfl
        rw [hstep]
        exact ⟨h1, h2, fun hfail =>
          h3 (fun o ho => hfail o (List.mem_cons_of_mem _ ho))⟩
    | netError =>
      have hstep : download_with_retry (FetchOutcome.netError :: rest) st =
          download_with_retry rest { st with tmp := none } := by
        simp [download_with_retry]
      obtain ⟨h1, h2, h3⟩ := ih { st with tmp := none } rfl
      rw [hstep]
      exact ⟨h1, h2, fun hfail =>
        h3 (fun o ho => hfail o (List.mem_cons_of_mem _ ho))⟩
    | badContentType =>
      have hstep :
          download_with_retry (FetchOutcome.badContentType :: rest) st =
            download_with_retry rest { st with tmp := none } := by
        simp [download_with_retry]
      obtain ⟨h1, h2, h3⟩ := ih { st with tmp := none } rfl
      rw [hstep]
      exact ⟨h1, h2, fun hfail =>
        h3 (fun o ho => hfail o (List.mem_cons_of_mem _ ho))⟩

/-- Claim C7: whatever the attempt outcomes, after `download_with_retry`
returns (at least one attempt, i.e. `max_retries >= 1`) the `.tmp`
sibling is gone, the destination never holds a zero-size file (unless one
was already there and untouched — the call installs only verified
non-empty files), and when every attempt fails the call returns `False`
(it does not raise) leaving the destination as it was. -/
theorem c7_fetch_clean_destination :
    ∀ (outs : List FetchOutcome) (st : FsState), outs ≠ [] →
      ((download_with_retry outs st).2.tmp = none) ∧
      ((download_with_retry outs st).2.dest = st.dest ∨
        ∃ n, 0 < n ∧ (download_with_retry outs st).2.dest = some n) ∧
      (st.dest ≠ some 0 → (download_with_retry outs st).2.dest ≠ some 0) ∧
      ((∀ o ∈ outs, fetch_success o = false) →
        (download_with_retry outs st).1 = false ∧
        (download_with_retry outs st).2.dest = st.dest) := by
  intro outs st hne
  match outs with
  | o :: rest =>
    have base : ((download_with_retry (o :: rest) st).2.tmp = none) ∧
        ((download_with_retry (o :: rest) st).2.dest = st.dest ∨
          ∃ n, 0 < n ∧ (download_with_retry (o :: rest) st).2.dest = some n) ∧
        ((∀ x ∈ o :: rest, fetch_success x = false) →
          (download_with_retry (o :: rest) st).1 = false ∧
          (download_with_retry (o :: rest) st).2.dest = st.dest) := by
      cases o with
      | body n =>
        by_cases hn : 0 < n
        · refine ⟨by simp [download_with_retry, hn], ?_, ?_⟩
          · right
            exact ⟨n, hn, by simp [download_with_retry, hn]⟩
          · intro hfail
            have := hfail (FetchOutcome.body n) (List.mem_cons_self _ _)
            simp [fetch_success, hn] at this
        · have hstep : download_with_retry (FetchOutcome.body n :: rest) st =
              download_with_retry rest { st with tmp := none } := by
            simp [download_with_retry, hn]
          obtain ⟨h1, h2, h3⟩ := download_with_retry_aux rest
            { st with tmp := none } rfl
          rw [hstep]
          exact ⟨h1, h2, fun hfail =>
            h3 (fun x hx => hfail x (List.mem_cons_of_mem _ hx))⟩
      | netError =>
        have hstep : download_with_retry (FetchOutcome.netError :: rest) st =
            download_with_retry rest { st with tmp := none } := by
          simp [download_with_retry]
        obtain ⟨h1, h2, h3⟩ := download_with_retry_aux rest
          { st with tmp := none } rfl
        rw [hstep]
        exact ⟨h1, h2, fun hfail =>
          h3 (fun x hx => hfail x (List.mem_cons_of_mem _ hx))⟩
      | badContentType =>
        have hstep :
            download_with_retry (FetchOutcome.badContentType :: rest) st =
              download_with_retry rest { st with tmp := none } := by
          simp [download_with_retry]
        obtain ⟨h1, h2, h3⟩ := download_with_retry_aux rest
          { st with tmp := none } rfl
        rw [hstep]
        exact ⟨h1, h2, fun hfail =>
          h3 (fun x hx => hfail x (List.mem_cons_of_mem _ hx))⟩
    refine ⟨base.1, base.2.1, ?_, base.2.2⟩
    intro hd0
    rcases base.2.1 with h | ⟨n, hn, h⟩
    · rw [h]; exact hd0
    · rw [h]
      intro hcontra
      have : n = 0 := by
        have := Option.some.inj hcontra
        omega
      omega

/-- Witness for C7: one empty-body attempt followed by one failed network
attempt, starting from a clean filesystem. -/
theorem c7_fetch_clean_destination_witness :
    ((download_with_retry [FetchOutcome.body 0, FetchOutcome.netError]
        { dest := none, tmp := none }).2.tmp = none) ∧
    ((download_with_retry [FetchOutcome.body 0, FetchOutcome.netError]
        { dest := none, tmp := none }).1 = false) := by
  have h := c7_fetch_clean_destination
    [FetchOutcome.body 0, FetchOutcome.netError]
    { dest := none, tmp := none } (by decide)
  exact ⟨h.1, (h.2.2.2 (by decide)).1⟩

/-- Effect of one requeueing `mark_failed` on the target row: tries+1,
status `queued`, backoff-dated `available_at`. -/
theorem mark_failed_spec (now : Nat) (jid e : String) (mt : Nat)
    (s : List Job) (r : Job)
    (hfind : s.find? (fun x => x.id == jid) = some r)
    (hlt : r.tries + 1 < mt) :
    (QueueStore.mark_failed now jid e true mt s).1 =
      (r.tries + 1, ("queued" : String)) ∧
    (QueueStore.mark_failed now jid e true mt s).2.find?
        (fun x => x.id == jid) =
      some { r with
             tries := r.tries + 1, last_error := some e,
             status := ("queued" : String),
             available_at :=
               some (now + compute_backoff_seconds (r.tries + 1)),
             updated_at := now, worker_id := none, heartbeat_at := none,
             processing_started_at := none } := by
  have heq : r.id = jid := by
    have := List.find?_some hfind
    simpa using this
  unfold QueueStore.mark_failed
  rw [hfind]
  refine ⟨by simp [hlt], ?_⟩
  rw [find?_map_key _ _
    (fun y => by by_cases hy : y.id = jid <;> simp [hy]) s, hfind]
  simp only [Option.map_some']
  rw [if_pos heq]
  simp [hlt]

/-- Claim C4: the queue backoff is `min(60 * 2^(n-1), 3600)` for every
`n ≥ 1`, it is monotone, and hence the `available_at` written by the
k-th consecutive `mark_failed` of a job is at least the one written by
the (k-1)-th (wall-clock time being monotone between the two calls). -/
theorem c4_backoff_available_monotone :
    (∀ n, 1 ≤ n →
      compute_backoff_seconds n = min (60 * 2 ^ (n - 1)) 3600) ∧
    (∀ n m, n ≤ m →
      compute_backoff_seconds n ≤ compute_backoff_seconds m) ∧
    (∀ (s : List Job) (r : Job) (ts1 ts2 : Nat) (e1 e2 : String) (mt : Nat),
      s.find? (fun x => x.id == r.id) = some r →
      ts1 ≤ ts2 → r.tries + 2 < mt →
      ∃ r1 r2,
        (QueueStore.mark_failed ts1 r.id e1 true mt s).2.find?
            (fun x => x.id == r.id) = some r1 ∧
        (QueueStore.mark_failed ts2 r.id e2 true mt
            (QueueStore.mark_failed ts1 r.id e1 true mt s).2).2.find?
            (fun x => x.id == r.id) = some r2 ∧
        r1.available_at =
          some (ts1 + compute_backoff_seconds (r.tries + 1)) ∧
        r2.available_at =
          some (ts2 + compute_backoff_seconds (r.tries + 2)) ∧
        ts1 + compute_backoff_seconds (r.tries + 1) ≤
          ts2 + compute_backoff_seconds (r.tries + 2)) := by
  have hmono : ∀ n m, n ≤ m →
      compute_backoff_seconds n ≤ compute_backoff_seconds m := by
    intro n m h
    unfold compute_backoff_seconds
    exact min_le_min
      (Nat.mul_le_mul_left 60
        (Nat.pow_le_pow_right (by omega) (Nat.sub_le_sub_right h 1)))
      le_rfl
  refine ⟨fun n _ => rfl, hmono, ?_⟩
  intro s r ts1 ts2 e1 e2 mt hfind h12 hmt
  obtain ⟨-, hfind1⟩ := mark_failed_spec ts1 r.id e1 mt s r hfind (by omega)
  obtain ⟨-, hfind2⟩ := mark_failed_spec ts2 r.id e2 mt
    (QueueStore.mark_failed ts1 r.id e1 true mt s).2 _ hfind1 (by simp; omega)
  refine ⟨_, _, hfind1, hfind2, rfl, by simp, ?_⟩
  exact Nat.add_le_add h12 (hmono _ _ (by omega))

/-- Witness for C4 on a one-row table with the queued fixture job. -/
theorem c4_backoff_available_monotone_witness :
    compute_backoff_seconds 1 = 60 ∧
    ∃ r1 r2,
      (QueueStore.mark_failed 100 jqueued.id ("e1") true 5 [jqueued]).2.find?
          (fun x => x.id == jqueued.id) = some r1 ∧
      (QueueStore.mark_failed 200 jqueued.id ("e2") true 5
          (QueueStore.mark_failed 100 jqueued.id ("e1") true 5
            [jqueued]).2).2.find?
          (fun x => x.id == jqueued.id) = some r2 ∧
      r1.available_at = some (100 + compute_backoff_seconds 1) ∧
      r2.available_at = some (200 + compute_backoff_seconds 2) ∧
      100 + compute_backoff_seconds 1 ≤ 200 + compute_backoff_seconds 2 := by
  refine ⟨by decide, ?_⟩
  have h := c4_backoff_available_monotone.2.2 [jqueued] jqueued 100 200
    ("e1") ("e2") 5 (by decide) (by omega) (by decide)
  simpa using h

/-- Claim C3: every single fail transition (`QueueStore.mark_failed`,
`DownloadQueueStore.mark_failed`, `DownloadQueueStore.fail_permanently`)
increments the stored `tries` of the target job by exactly 1, while the
stale-reclaim operations leave `tries` unchanged on every row. -/
theorem c3_tries_increments :
    (∀ (now : Nat) (jid e : String) (rq : Bool) (mt : Nat)
       (s : List Job) (r : Job),
      s.find? (fun x => x.id == jid) = some r →
      (QueueStore.mark_failed now jid e rq mt s).1.1 = r.tries + 1 ∧
      ∃ r', (QueueStore.mark_failed now jid e rq mt s).2.find?
          (fun x => x.id == jid) = some r' ∧ r'.tries = r.tries + 1) ∧
    (∀ (now : Nat) (jid e : String) (na : Nat) (st : DState)
       (r : DownloadJob),
      st.rows.find? (fun x => x.job_id == jid) = some r →
      ∃ r', (DownloadQueueStore.mark_failed now jid e na st).rows.find?
          (fun x => x.job_id == jid) = some r' ∧ r'.tries = r.tries + 1) ∧
    (∀ (now : Nat) (jid e : String) (st : DState) (r : DownloadJob),
      st.rows.find? (fun x => x.job_id == jid) = some r →
      ∃ r', (DownloadQueueStore.fail_permanently now jid e st).rows.find?
          (fun x => x.job_id == jid) = some r' ∧ r'.tries = r.tries + 1) ∧
    (∀ (now timeout : Nat) (s : List Job),
      (QueueStore.reclaim_stale_processing now timeout s).2.map
          (fun r => r.tries) = s.map (fun r => r.tries)) ∧
    (∀ (now timeout : Nat) (st : DState),
      (DownloadQueueStore.reclaim_stale_downloading now timeout st).2.rows.map
          (fun r => r.tries) = st.rows.map (fun r => r.tries)) := by
  refine ⟨?_, ?_, ?_, ?_, ?_⟩
  · intro now jid e rq mt s r hfind
    have heq : r.id = jid := by
      have := List.find?_some hfind
      simpa using this
    constructor
    · unfold QueueStore.mark_failed
      rw [hfind]
    · unfold QueueStore.mark_failed
      rw [find?_map_key _ _
        (fun y => by by_cases hy : y.id = jid <;> simp [hy]) s, hfind]
      simp only [Option.map_some']
      rw [if_pos heq]
      exact ⟨_, rfl, rfl⟩
  · intro now jid e na st r hfind
    have heq : r.job_id = jid := by
      have := List.find?_some hfind
      simpa using this
    simp only [DownloadQueueStore.mark_failed]
    rw [find?_map_key _ _
      (fun y => by by_cases hy : y.job_id = jid <;> simp [hy]) st.rows, hfind]
    simp only [Option.map_some']
    rw [if_pos heq]
    exact ⟨_, rfl, rfl⟩
  · intro now jid e st r hfind
    have heq : r.job_id = jid := by
      have := List.find?_some hfind
      simpa using this
    simp only [DownloadQueueStore.fail_permanently]
    rw [find?_map_key _ _
      (fun y => by by_cases hy : y.job_id = jid <;> simp [hy]) st.rows, hfind]
    simp only [Option.map_some']
    rw [if_pos heq]
    exact ⟨_, rfl, rfl⟩
  · intro now timeout s
    unfold QueueStore.reclaim_stale_processing
    simp only [List.map_map]
    apply List.map_congr_left
    intro x _
    simp only [Function.comp_apply]
    by_cases h : ((s.filter (QueueStore.stale_check now timeout)).map
        (fun r => r.id)).contains x.id = true
    · rw [if_pos h]
      rfl
    · rw [if_neg h]
  · intro now timeout st
    unfold DownloadQueueStore.reclaim_stale_downloading
    simp only [List.map_map]
    apply List.map_congr_left
    intro x _
    simp only [Function.comp_apply]
    by_cases h : DownloadQueueStore.stale_check now timeout x = true
    · rw [if_pos h]
      rfl
    · rw [if_neg h]

/-- Witness for C3 on the fixture rows. -/
theorem c3_tries_increments_witness :
    ((QueueStore.mark_failed 100 jqueued.id ("boom") true 5
        [jqueued]).1.1 = jqueued.tries + 1) ∧
    ((QueueStore.reclaim_stale_processing 1000 600 [jproc]).2.map
        (fun r => r.tries) = [jproc].map (fun r => r.tries)) := by
  refine ⟨?_, c3_tries_increments.2.2.2.1 1000 600 [jproc]⟩
  exact (c3_tries_increments.1 100 jqueued.id ("boom") true 5
    [jqueued] jqueued (by decide)).1

/-- `QueueStore.enqueue` on an existing `done` row is a no-op. -/
theorem q_enqueue_done_eq (now : Nat) (jid obra pasta payload : String)
    (s : List Job) (r : Job)
    (hfind : s.find? (fun x => x.id == jid) = some r)
    (hdone : r.status = ("done" : String)) :
    QueueStore.enqueue now jid obra pasta payload s = s := by
  simp only [QueueStore.enqueue, hfind]
  rw [if_pos hdone]

/-- `QueueStore.enqueue` on an existing non-`done` row rewrites it. -/
theorem q_enqueue_not_done_eq (now : Nat) (jid obra pasta payload : String)
    (s : List Job) (r : Job)
    (hfind : s.find? (fun x => x.id == jid) = some r)
    (hnd : ¬r.status = ("done" : String)) :
    QueueStore.enqueue now jid obra pasta payload s =
      s.map (fun x =>
        if x.id = jid then
          { x with obra_nome := obra, pasta := pasta,
                   payload_json := payload, status := ("queued" : String),
                   updated_at := now, available_at := none }
        else x) := by
  simp only [QueueStore.enqueue, hfind]
  rw [if_neg hnd]

/-- `QueueStore.enqueue` of a fresh job id appends one queued row. -/
theorem q_enqueue_fresh_eq (now : Nat) (jid obra pasta payload : String)
    (s : List Job)
    (hfind : s.find? (fun x => x.id == jid) = none) :
    QueueStore.enqueue now jid obra pasta payload s =
      s ++ [{ id := jid, obra_nome := obra, pasta := pasta,
              payload_json := payload, status := ("queued" : String),
              tries := 0, last_error := none, created_at := now,
              updated_at := now, available_at := none,
              processing_started_at := none, worker_id := none,
              heartbeat_at := none }] := by
  unfold QueueStore.enqueue
  rw [hfind]

/-- Counterexample to C2 as stated: re-enqueuing the existing *failed*
download job "j" (url "a") under a new url "b" leaves the row entirely
unchanged — `DownloadQueueStore.enqueue` neither overwrites the payload
nor resets the status to `queued`. -/
theorem c2_counterexample :
    ((DownloadQueueStore.enqueue 100 ("b") ("n2") ("p2") 0 0 ("j")
        { rows := [djf], nextId := 4 }).2 =
      { rows := [djf], nextId := 4 }) ∧
    djf.status = ("failed" : String) ∧ djf.url = ("a" : String) ∧
    ¬(djf.status = ("queued" : String) ∧ djf.url = ("b" : String)) := by
  exact ⟨by decide, rfl, rfl, by decide⟩

/-- Claim C2 (amended): for `QueueStore.enqueue` the claim holds as
stated — a `done` row is left unchanged, any other existing row has
payload/target overwritten and status reset to `queued`, a fresh id is
inserted as `queued`.  `DownloadQueueStore.enqueue`, however, inserts
only when the `job_id` is new and otherwise leaves the existing row
completely unchanged, whatever its status. -/
theorem c2_enqueue_idempotency :
    (∀ (now : Nat) (jid obra pasta payload : String) (s : List Job)
       (r : Job), s.find? (fun x => x.id == jid) = some r →
      r.status = ("done" : String) →
      QueueStore.enqueue now jid obra pasta payload s = s) ∧
    (∀ (now : Nat) (jid obra pasta payload : String) (s : List Job)
       (r : Job), s.find? (fun x => x.id == jid) = some r →
      ¬r.status = ("done" : String) →
      ∃ r', (QueueStore.enqueue now jid obra pasta payload s).find?
          (fun x => x.id == jid) = some r' ∧
        r' = { r with
               obra_nome := obra, pasta := pasta, payload_json := payload,
               status := ("queued" : String), updated_at := now,
               available_at := none }) ∧
    (∀ (now : Nat) (url nome pasta jid : String) (et bs : Nat)
       (st : DState), st.rows.any (fun x => x.job_id == jid) = true →
      (DownloadQueueStore.enqueue now url nome pasta et bs jid st).2 = st) ∧
    (∀ (now : Nat) (url nome pasta jid : String) (et bs : Nat)
       (st : DState), st.rows.any (fun x => x.job_id == jid) = false →
      (DownloadQueueStore.enqueue now url nome pasta et bs jid st).2.rows =
        st.rows ++
          [{ id := st.nextId, job_id := jid, url := url, nome := nome,
             pasta := pasta, expected_total := et, batch_size := bs,
             status := ("queued" : String), tries := 0, available_at := now,
             last_error := ("" : String), result_json := ("" : String),
             summary_json := ("" : String), worker_id := ("" : String),
             processing_started_at := 0, heartbeat_at := 0, chapter := 0,
             progress := 0, total_images := 0, state := ("idle" : String),
             created_at := now, updated_at := now }]) := by
  refine ⟨q_enqueue_done_eq, ?_, ?_, ?_⟩
  · intro now jid obra pasta payload s r hfind hnd
    have heq : r.id = jid := by
      have := List.find?_some hfind
      simpa using this
    rw [q_enqueue_not_done_eq now jid obra pasta payload s r hfind hnd]
    rw [find?_map_key _ _
      (fun y => by by_cases hy : y.id = jid <;> simp [hy]) s, hfind]
    simp only [Option.map_some']
    rw [if_pos heq]
    exact ⟨_, rfl, rfl⟩
  · intro now url nome pasta jid et bs st hany
    unfold DownloadQueueStore.enqueue
    rw [hany]
    rfl
  · intro now url nome pasta jid et bs st hany
    unfold DownloadQueueStore.enqueue
    rw [hany]
    rfl

/-- Witness for C2 (amended) on the fixture rows: a `done`-free existing
download row absorbs the re-enqueue, and a `done` upload row is a no-op
for `QueueStore.enqueue`. -/
theorem c2_enqueue_idempotency_witness :
    (DownloadQueueStore.enqueue 100 ("b2") ("n3") ("p3") 0 0 ("d2")
        { rows := [djw], nextId := 3 }).2 =
      { rows := [djw], nextId := 3 } :=
  c2_enqueue_idempotency.2.2.1 100 ("b2") ("n3") ("p3") ("d2") 0 0
    { rows := [djw], nextId := 3 } (by decide)

/-- Counterexample to C10 as stated: `DownloadQueueStore.mark_done` on
the actively downloading fixture row forces status `done` but leaves the
worker/heartbeat fields ("w", 10) in place — it does not clear them. -/
theorem c10_counterexample :
    ((DownloadQueueStore.mark_done 100 ("d2") ("res") ("sum")
        { rows := [djw], nextId := 3 }).rows.map
      (fun r => (r.status, r.worker_id, r.heartbeat_at)) =
      [(("done" : String), ("w" : String), (10 : Nat))]) ∧
    ¬(("w" : String) = ("" : String) ∧ (10 : Nat) = 0) := by
  exact ⟨by decide, by decide⟩

/-- Claim C10 (amended): `mark_done` is unconditional in both stores —
no status or owner precondition, so any worker can force any job to
`done`.  `QueueStore.mark_done` additionally clears the
worker/heartbeat/processing_started fields, while
`DownloadQueueStore.mark_done` stores result/summary and sets
state `completed` but leaves `worker_id` and `heartbeat_at` as they
were. -/
theorem c10_mark_done_unconditional :
    (∀ (now : Nat) (jid : String) (s : List Job) (r : Job),
      r ∈ s → r.id = jid →
      { r with
        status := ("done" : String), updated_at := now, worker_id := none,
        heartbeat_at := none, processing_started_at := none } ∈
        QueueStore.mark_done now jid s) ∧
    (∀ (now : Nat) (jid : String) (s : List Job) (r : Job),
      r ∈ s → ¬r.id = jid → r ∈ QueueStore.mark_done now jid s) ∧
    (∀ (now : Nat) (jid res sum : String) (st : DState) (r : DownloadJob),
      r ∈ st.rows → r.job_id = jid →
      ∃ r', r' ∈ (DownloadQueueStore.mark_done now jid res sum st).rows ∧
        r' = { r with
               status := ("done" : String), state := ("completed" : String),
               result_json := res, summary_json := sum,
               updated_at := now } ∧
        r'.worker_id = r.worker_id ∧ r'.heartbeat_at = r.heartbeat_at) ∧
    (∀ (now : Nat) (jid res sum : String) (st : DState) (r : DownloadJob),
      r ∈ st.rows → ¬r.job_id = jid →
      r ∈ (DownloadQueueStore.mark_done now jid res sum st).rows) := by
  refine ⟨?_, ?_, ?_, ?_⟩
  · intro now jid s r hr heq
    have h := List.mem_map_of_mem (fun x =>
      if x.id = jid then
        { x with
          status := ("done" : String), updated_at := now, worker_id := none,
          heartbeat_at := none, processing_started_at := none }
      else x) hr
    simpa [heq, QueueStore.mark_done] using h
  · intro now jid s r hr hne
    have h := List.mem_map_of_mem (fun x =>
      if x.id = jid then
        { x with
          status := ("done" : String), updated_at := now, worker_id := none,
          heartbeat_at := none, processing_started_at := none }
      else x) hr
    simpa [hne, QueueStore.mark_done] using h
  · intro now jid res sum st r hr heq
    refine ⟨_, ?_, rfl, rfl, rfl⟩
    have h := List.mem_map_of_mem (fun x =>
      if x.job_id = jid then
        { x with
          status := ("done" : String), state := ("completed" : String),
          result_json := res, summary_json := sum, updated_at := now }
      else x) hr
    simpa [heq, DownloadQueueStore.mark_done] using h
  · intro now jid res sum st r hr hne
    have h := List.mem_map_of_mem (fun x =>
      if x.job_id = jid then
        { x with
          status := ("done" : String), state := ("completed" : String),
          result_json := res, summary_json := sum, updated_at := now }
      else x) hr
    simpa [hne, DownloadQueueStore.mark_done] using h

/-- Witness for C10 (amended): forcing the actively processing fixture
job to `done` even though worker "w" still owns it. -/
theorem c10_mark_done_unconditional_witness :
    { jproc with
      status := ("done" : String), updated_at := 100, worker_id := none,
      heartbeat_at := none, processing_started_at := none } ∈
      QueueStore.mark_done 100 jproc.id [jproc] :=
  c10_mark_done_unconditional.1 100 jproc.id [jproc] jproc
    (List.mem_singleton_self jproc) rfl

/-- Claim C5: the stale reclaims revert exactly the active rows whose
heartbeat age exceeds the timeout (under the reachable-state invariants
that ids are unique and every active row carries a heartbeat, both
established by `claim_next`), set a short forward-dated `available_at`,
clear the owner/heartbeat fields, and touch no other row. -/
theorem c5_reclaim_exactness :
    (∀ (now T : Nat) (s : List Job),
      (s.map (fun r => r.id)).Nodup →
      (∀ r ∈ s, r.status = ("processing" : String) →
        r.heartbeat_at ≠ none) →
      ((QueueStore.reclaim_stale_processing now T s).1 =
        (s.filter (QueueStore.stale_check now T)).length) ∧
      (∀ r ∈ s, (QueueStore.stale_check now T r = true ↔
        r.status = ("processing" : String) ∧
        ∃ h, r.heartbeat_at = some h ∧ T < now - h)) ∧
      (∀ r ∈ s, QueueStore.stale_check now T r = false →
        r ∈ (QueueStore.reclaim_stale_processing now T s).2) ∧
      (∀ r ∈ s, QueueStore.stale_check now T r = true →
        QueueStore.reclaim_update now r ∈
          (QueueStore.reclaim_stale_processing now T s).2 ∧
        (QueueStore.reclaim_update now r).status = ("queued" : String) ∧
        (QueueStore.reclaim_update now r).available_at = some (now + 30) ∧
        (QueueStore.reclaim_update now r).worker_id = none ∧
        (QueueStore.reclaim_update now r).heartbeat_at = none)) ∧
    (∀ (now T : Nat) (st : DState),
      (∀ r ∈ st.rows, (r.status = ("downloading" : String) ∨
        r.status = ("validating" : String)) → 0 < r.heartbeat_at) →
      ((DownloadQueueStore.reclaim_stale_downloading now T st).1 =
        (st.rows.filter (DownloadQueueStore.stale_check now T)).length) ∧
      (∀ r ∈ st.rows, (DownloadQueueStore.stale_check now T r = true ↔
        (r.status = ("downloading" : String) ∨
          r.status = ("validating" : String)) ∧ T < now - r.heartbeat_at)) ∧
      (∀ r ∈ st.rows, DownloadQueueStore.stale_check now T r = false →
        r ∈ (DownloadQueueStore.reclaim_stale_downloading now T st).2.rows) ∧
      (∀ r ∈ st.rows, DownloadQueueStore.stale_check now T r = true →
        DownloadQueueStore.reclaim_update now r ∈
          (DownloadQueueStore.reclaim_stale_downloading now T st).2.rows ∧
        (DownloadQueueStore.reclaim_update now r).status =
          ("queued" : String) ∧
        (DownloadQueueStore.reclaim_update now r).available_at = now + 5 ∧
        (DownloadQueueStore.reclaim_update now r).worker_id =
          ("" : String) ∧
        (DownloadQueueStore.reclaim_update now r).heartbeat_at = 0)) := by
  constructor
  · intro now T s hnodup hinv
    refine ⟨rfl, ?_, ?_, ?_⟩
    · intro r hr
      constructor
      · intro hst
        have hb := (Bool.and_eq_true _ _).mp hst
        have hstatus : r.status = ("processing" : String) := by
          have := hb.1
          simpa using this
        refine ⟨hstatus, ?_⟩
        rcases hh : r.heartbeat_at with - | h
        · exact absurd hh (hinv r hr hstatus)
        · refine ⟨h, rfl, ?_⟩
          have := hb.2
          rw [hh] at this
          simp at this
          omega
      · rintro ⟨hstatus, h, hh, hT⟩
        unfold QueueStore.stale_check
        rw [hh, hstatus]
        simp
        omega
    · intro r hr hst
      have hcontains : ((s.filter (QueueStore.stale_check now T)).map
          (fun x => x.id)).contains r.id = false := by
        by_contra hc
        rw [Bool.not_eq_false, List.contains_eq_any_beq, List.any_eq_true]
          at hc
        obtain ⟨i, hi, hbeq⟩ := hc
        obtain ⟨y, hy, rfl⟩ := List.mem_map.mp hi
        have hyid : r.id = y.id := by simpa using hbeq
        obtain ⟨hys, hyst⟩ := List.mem_filter.mp hy
        have : r = y := List.inj_on_of_nodup_map hnodup hr hys hyid
        rw [this] at hst
        rw [hyst] at hst
        exact absurd hst (by decide)
      have h := List.mem_map_of_mem (fun x =>
        if ((s.filter (QueueStore.stale_check now T)).map
            (fun x => x.id)).contains x.id = true
        then QueueStore.reclaim_update now x else x) hr
      simp only [hcontains] at h
      simpa [QueueStore.reclaim_stale_processing] using h
    · intro r hr hst
      have hcontains : ((s.filter (QueueStore.stale_check now T)).map
          (fun x => x.id)).contains r.id = true := by
        rw [List.contains_eq_any_beq, List.any_eq_true]
        refine ⟨r.id, List.mem_map_of_mem _ (List.mem_filter.mpr ⟨hr, hst⟩),
          by simp⟩
      have h := List.mem_map_of_mem (fun x =>
        if ((s.filter (QueueStore.stale_check now T)).map
            (fun x => x.id)).contains x.id = true
        then QueueStore.reclaim_update now x else x) hr
      simp only [hcontains] at h
      refine ⟨?_, rfl, rfl, rfl, rfl⟩
      simpa [QueueStore.reclaim_stale_processing] using h
  · intro now T st hinv
    refine ⟨rfl, ?_, ?_, ?_⟩
    · intro r hr
      constructor
      · intro hst
        unfold DownloadQueueStore.stale_check at hst
        rw [Bool.and_eq_true, Bool.and_eq_true] at hst
        obtain ⟨⟨h1, h2⟩, h3⟩ := hst
        have hstatus : r.status = ("downloading" : String) ∨
            r.status = ("validating" : String) := by
          rcases (Bool.or_eq_true _ _).mp h1 with h | h
          · exact Or.inl (by simpa using h)
          · exact Or.inr (by simpa using h)
        refine ⟨hstatus, ?_⟩
        have := of_decide_eq_true h3
        omega
      · rintro ⟨hstatus, hT⟩
        have hhb : 0 < r.heartbeat_at := hinv r hr hstatus
        unfold DownloadQueueStore.stale_check
        rcases hstatus with h | h <;> rw [h] <;> simp <;> omega
    · intro r hr hst
      have h := List.mem_map_of_mem (fun x =>
        if DownloadQueueStore.stale_check now T x = true
        then DownloadQueueStore.reclaim_update now x else x) hr
      simp only [hst] at h
      simpa [DownloadQueueStore.reclaim_stale_downloading] using h
    · intro r hr hst
      have h := List.mem_map_of_mem (fun x =>
        if DownloadQueueStore.stale_check now T x = true
        then DownloadQueueStore.reclaim_update now x else x) hr
      simp only [hst] at h
      refine ⟨?_, rfl, rfl, rfl, rfl⟩
      simpa [DownloadQueueStore.reclaim_stale_downloading] using h

/-- Witness for C5: at time 1000 with timeout 600, the fixture job whose
last heartbeat was at 10 is reclaimed to `queued`. -/
theorem c5_reclaim_exactness_witness :
    QueueStore.reclaim_update 1000 jproc ∈
      (QueueStore.reclaim_stale_processing 1000 600 [jproc]).2 ∧
    (QueueStore.reclaim_update 1000 jproc).status = ("queued" : String) := by
  have h := (c5_reclaim_exactness.1 1000 600 [jproc] (by decide)
    (by decide)).2.2.2 jproc (List.mem_singleton_self jproc) (by decide)
  exact ⟨h.1, h.2.1⟩

/-- The argmin fold of `QueueStore.select_oldest` only ever answers with
an eligible list member (or keeps the accumulator). -/
theorem q_select_fold_mem (now : Nat) :
    ∀ (s : List Job) (acc : Option Job) (r : Job),
      s.foldl (fun acc r =>
        if QueueStore.claim_eligible now r then
          match acc with
          | none => some r
          | some b => if r.created_at < b.created_at then some r else acc
        else acc) acc = some r →
      acc = some r ∨ (r ∈ s ∧ QueueStore.claim_eligible now r = true) := by
  intro s
  induction s with
  | nil => intro acc r h; exact Or.inl h
  | cons x t ih =>
    intro acc r h
    rw [List.foldl_cons] at h
    rcases ih _ r h with hacc | hmem
    · by_cases he : QueueStore.claim_eligible now x = true
      · rw [if_pos he] at hacc
        cases acc with
        | none =>
          cases hacc
          exact Or.inr ⟨List.mem_cons_self _ _, he⟩
        | some b =>
          have hacc2 : (if x.created_at < b.created_at
              then some x else some b) = some r := hacc
          by_cases hk : x.created_at < b.created_at
          · rw [if_pos hk] at hacc2
            cases hacc2
            exact Or.inr ⟨List.mem_cons_self _ _, he⟩
          · rw [if_neg hk] at hacc2
            exact Or.inl hacc2
      · rw [if_neg he] at hacc
        exact Or.inl hacc
    · exact Or.inr ⟨List.mem_cons_of_mem _ hmem.1, hmem.2⟩

/-- The argmin fold of `DownloadQueueStore.select_oldest` only ever
answers with an eligible list member (or keeps the accumulator). -/
theorem d_select_fold_mem (now : Nat) :
    ∀ (s : List DownloadJob) (acc : Option DownloadJob) (r : DownloadJob),
      s.foldl (fun acc r =>
        if DownloadQueueStore.claim_eligible now r then
          match acc with
          | none => some r
          | some b => if r.created_at < b.created_at then some r else acc
        else acc) acc = some r →
      acc = some r ∨
        (r ∈ s ∧ DownloadQueueStore.claim_eligible now r = true) := by
  intro s
  induction s with
  | nil => intro acc r h; exact Or.inl h
  | cons x t ih =>
    intro acc r h
    rw [List.foldl_cons] at h
    rcases ih _ r h with hacc | hmem
    · by_cases he : DownloadQueueStore.claim_eligible now x = true
      · rw [if_pos he] at hacc
        cases acc with
        | none =>
          cases hacc
          exact Or.inr ⟨List.mem_cons_self _ _, he⟩
        | some b =>
          have hacc2 : (if x.created_at < b.created_at
              then some x else some b) = some r := hacc
          by_cases hk : x.created_at < b.created_at
          · rw [if_pos hk] at hacc2
            cases hacc2
            exact Or.inr ⟨List.mem_cons_self _ _, he⟩
          · rw [if_neg hk] at hacc2
            exact Or.inl hacc2
      · rw [if_neg he] at hacc
        exact Or.inl hacc
    · exact Or.inr ⟨List.mem_cons_of_mem _ hmem.1, hmem.2⟩

/-- `QueueStore.select_oldest` answers with an eligible member. -/
theorem q_select_oldest_mem (now : Nat) (s : List Job) (r : Job)
    (h : QueueStore.select_oldest now s = some r) :
    r ∈ s ∧ QueueStore.claim_eligible now r = true := by
  unfold QueueStore.select_oldest at h
  rcases q_select_fold_mem now s none r h with hacc | hm
  · cases hacc
  · exact hm

/-- `DownloadQueueStore.select_oldest` answers with an eligible member. -/
theorem d_select_oldest_mem (now : Nat) (s : List DownloadJob)
    (r : DownloadJob)
    (h : DownloadQueueStore.select_oldest now s = some r) :
    r ∈ s ∧ DownloadQueueStore.claim_eligible now r = true := by
  unfold DownloadQueueStore.select_oldest at h
  rcases d_select_fold_mem now s none r h with hacc | hm
  · cases hacc
  · exact hm

/-- Claim C1: both `claim_next` implementations move a job into the
active state only from `queued` with `available_at` due; therefore as
long as a claimed job's row stays in the active status, no `claim_next`
call on any later table state can return that job id again — two claims
that both return a job return distinct ids unless the first job left the
active state in between. -/
theorem c1_claim_next_exclusive :
    (∀ (now : Nat) (wid : String) (s : List Job) (j : Job) (s2 : List Job),
      QueueStore.claim_next now wid s = (some j, s2) →
      ∃ r ∈ s, r.id = j.id ∧ r.status = ("queued" : String) ∧
        (r.available_at = none ∨ ∃ a, r.available_at = some a ∧ a ≤ now) ∧
        j.status = ("processing" : String)) ∧
    (∀ (now : Nat) (wid : String) (s : List Job) (j : Job) (s2 : List Job)
       (jid : String),
      (∀ r ∈ s, r.id = jid → r.status = ("processing" : String)) →
      QueueStore.claim_next now wid s = (some j, s2) → ¬j.id = jid) ∧
    (∀ (now : Nat) (wid : String) (st : DState) (j : DownloadJob)
       (st2 : DState),
      DownloadQueueStore.claim_next now wid st = (some j, st2) →
      ∃ r ∈ st.rows, r.id = j.id ∧ r.status = ("queued" : String) ∧
        r.available_at ≤ now ∧ j.status = ("downloading" : String)) ∧
    (∀ (now : Nat) (wid : String) (st : DState) (j : DownloadJob)
       (st2 : DState) (jid : Nat),
      (∀ r ∈ st.rows, r.id = jid →
        r.status = ("downloading" : String) ∨
          r.status = ("validating" : String)) →
      DownloadQueueStore.claim_next now wid st = (some j, st2) →
      ¬j.id = jid) := by
  have hq : ∀ (now : Nat) (wid : String) (s : List Job) (j : Job)
      (s2 : List Job), QueueStore.claim_next now wid s = (some j, s2) →
      ∃ r ∈ s, r.id = j.id ∧ r.status = ("queued" : String) ∧
        (r.available_at = none ∨ ∃ a, r.available_at = some a ∧ a ≤ now) ∧
        j.status = ("processing" : String) := by
    intro now wid s j s2 h
    unfold QueueStore.claim_next at h
    rcases hsel : QueueStore.select_oldest now s with - | r
    · rw [hsel] at h
      exact absurd (congrArg Prod.fst h) (by simp)
    · rw [hsel] at h
      obtain ⟨hmem, helig⟩ := q_select_oldest_mem now s r hsel
      have h2 : (some (QueueStore.claim_update now wid r),
          s.map (fun x =>
            if x.id = r.id then QueueStore.claim_update now wid x else x)) =
          ((some j, s2) : Option Job × List Job) := h
      have hj : j = QueueStore.claim_update now wid r :=
        (Option.some.inj (congrArg Prod.fst h2)).symm
      have hb : r.status = ("queued" : String) ∧
          (match r.available_at with
           | none => true
           | some a => decide (a ≤ now)) = true := by
        simpa [QueueStore.claim_eligible] using helig
      refine ⟨r, hmem, ?_, hb.1, ?_, ?_⟩
      · rw [hj]; rfl
      · rcases hav : r.available_at with - | a
        · exact Or.inl rfl
        · refine Or.inr ⟨a, rfl, ?_⟩
          have h3 := hb.2
          rw [hav] at h3
          simpa using h3
      · rw [hj]; rfl
  have hd : ∀ (now : Nat) (wid : String) (st : DState) (j : DownloadJob)
      (st2 : DState),
      DownloadQueueStore.claim_next now wid st = (some j, st2) →
      ∃ r ∈ st.rows, r.id = j.id ∧ r.status = ("queued" : String) ∧
        r.available_at ≤ now ∧ j.status = ("downloading" : String) := by
    intro now wid st j st2 h
    unfold DownloadQueueStore.claim_next at h
    rcases hsel : DownloadQueueStore.select_oldest now st.rows with - | r
    · rw [hsel] at h
      exact absurd (congrArg Prod.fst h) (by simp)
    · rw [hsel] at h
      obtain ⟨hmem, helig⟩ := d_select_oldest_mem now st.rows r hsel
      have hb : r.status = ("queued" : String) ∧ r.available_at ≤ now := by
        simpa [DownloadQueueStore.claim_eligible] using helig
      have h2 : (if r.status = ("queued" : String) then
          (some (DownloadQueueStore.claim_update now wid r),
           { st with rows := st.rows.map (fun x =>
               if x.id = r.id ∧ x.status = ("queued" : String)
               then DownloadQueueStore.claim_update now wid x else x) })
          else (none, st)) = ((some j, st2) : Option DownloadJob × DState) :=
        h
      rw [if_pos hb.1] at h2
      have hj : j = DownloadQueueStore.claim_update now wid r :=
        (Option.some.inj (congrArg Prod.fst h2)).symm
      refine ⟨r, hmem, ?_, hb.1, hb.2, ?_⟩
      · rw [hj]; rfl
      · rw [hj]; rfl
  refine ⟨hq, ?_, hd, ?_⟩
  · intro now wid s j s2 jid hactive h hjid
    obtain ⟨r, hmem, hid, hstatus, -, -⟩ := hq now wid s j s2 h
    have hpr : r.status = ("processing" : String) :=
      hactive r hmem (by rw [hid, hjid])
    rw [hstatus] at hpr
    exact absurd hpr (by decide)
  · intro now wid st j st2 jid hactive h hjid
    obtain ⟨r, hmem, hid, hstatus, -, -⟩ := hd now wid st j st2 h
    rcases hactive r hmem (by rw [hid, hjid]) with hx | hx <;>
      rw [hstatus] at hx <;> exact absurd hx (by decide)

/-- Witness for C1: with the fixture table holding the active job "p1"
and the queued job "q1", a claim returns "q1", not the active "p1". -/
theorem c1_claim_next_exclusive_witness :
    ¬(QueueStore.claim_update 100 ("w2") jqueued).id = jproc.id := by
  exact c1_claim_next_exclusive.2.1 100 ("w2") [jproc, jqueued]
    (QueueStore.claim_update 100 ("w2") jqueued)
    [jproc, QueueStore.claim_update 100 ("w2") jqueued] jproc.id
    (by decide) (by decide)

/-- Counterexample to C6 as stated: in a completed single-invocation run
(scenario A: 5 chapters, fresh checkpoint, completion reached) the
downstream enqueue is invoked twice — once through the guarded mid-crawl
handoff and once unconditionally on the completion path — so it is not
"enqueued at most once" at the call level. -/
theorem c6_counterexample :
    upload_enqueue_call_count false 5 true = 2 ∧
    ¬(upload_enqueue_call_count false 5 true ≤ 1) := by
  exact ⟨by decide, by decide⟩

/-- Claim C6 (amended): the persisted `upload_enqueued` flag guards only
the mid-crawl handoff, which fires at most once per invocation and never
when the flag was already persisted by an earlier resume; the completion
path calls the downstream enqueue again unconditionally.  Both calls of
one invocation use the same stable `job_id` and `QueueStore.enqueue` is
idempotent per id, so a completed scenario-A run still ends with exactly
one downstream job row for the target, in status `queued`. -/
theorem c6_downstream_single_row :
    (∀ ch, guarded_upload_call true ch = false) ∧
    (∀ flag ch completed, upload_enqueue_call_count flag ch completed ≤ 2) ∧
    (∀ (ch now1 now2 : Nat) (jid obra pasta payload : String)
       (s : List Job), count_by_id jid s = 0 → 1 ≤ ch →
      count_by_id jid (run_upload_enqueues false ch true now1 now2 jid obra
        pasta payload s) = 1 ∧
      ∃ r, (run_upload_enqueues false ch true now1 now2 jid obra pasta
          payload s).find? (fun x => x.id == jid) = some r ∧
        r.status = ("queued" : String)) := by
  refine ⟨fun ch => rfl, ?_, ?_⟩
  · intro flag ch completed
    unfold upload_enqueue_call_count
    split <;> split <;> omega
  · intro ch now1 now2 jid obra pasta payload s h0 hch
    have hguard : guarded_upload_call false ch = true := by
      simp [guarded_upload_call, hch]
    have hfind := count_by_id_zero_find jid s h0
    have hs1 : run_upload_enqueues false ch true now1 now2 jid obra pasta
        payload s =
        QueueStore.enqueue now2 jid obra pasta payload
          (QueueStore.enqueue now1 jid obra pasta payload s) := by
      unfold run_upload_enqueues
      rw [hguard]
      simp
    set newr : Job :=
      { id := jid, obra_nome := obra, pasta := pasta,
        payload_json := payload, status := ("queued" : String),
        tries := 0, last_error := none, created_at := now1,
        updated_at := now1, available_at := none,
        processing_started_at := none, worker_id := none,
        heartbeat_at := none } with hnewr
    have henq1 : QueueStore.enqueue now1 jid obra pasta payload s =
        s ++ [newr] := q_enqueue_fresh_eq now1 jid obra pasta payload s hfind
    have hfind1 : (s ++ [newr]).find? (fun x => x.id == jid) = some newr := by
      rw [List.find?_append, hfind]
      simp [hnewr]
    have hnd : ¬newr.status = ("done" : String) := by
      show ¬("queued" : String) = ("done" : String)
      decide
    have henq2 := q_enqueue_not_done_eq now2 jid obra pasta payload
      (s ++ [newr]) newr hfind1 hnd
    rw [hs1, henq1, henq2]
    constructor
    · rw [count_by_id_map _ (fun y => by by_cases hy : y.id = jid <;>
        simp [hy]) jid]
      have hs0 : s.filter (fun r => r.id == jid) = [] := by
        unfold count_by_id at h0
        exact List.length_eq_zero.mp h0
      unfold count_by_id
      rw [List.filter_append, hs0]
      simp [hnewr]
    · rw [find?_map_key _ _
        (fun y => by by_cases hy : y.id = jid <;> simp [hy]) _, hfind1]
      simp only [Option.map_some']
      exact ⟨_, rfl, rfl⟩

/-- Witness for C6 (amended) on the empty upload queue. -/
theorem c6_downstream_single_row_witness :
    count_by_id ("T1") (run_upload_enqueues false 5 true 100 200 ("T1")
      ("obra") ("pasta") ("pl") []) = 1 :=
  (c6_downstream_single_row.2.2 5 100 200 ("T1") ("obra") ("pasta") ("pl")
    [] (by decide) (by decide)).1

/-!  C9: URL-normalization lemmas.  -/

/-- Successful `splitOnFirst` decomposes the list at the first hit. -/
theorem splitOnFirst_some (sep : Char) :
    ∀ (l : List Char) (p : List Char × List Char),
      splitOnFirst sep l = some p →
      l = p.1 ++ sep :: p.2 ∧ sep ∉ p.1 := by
  intro l
  induction l with
  | nil => intro p h; cases h
  | cons c t ih =>
    intro p h
    unfold splitOnFirst at h
    by_cases hc : c = sep
    · rw [if_pos hc] at h
      cases h
      subst hc
      exact ⟨rfl, by simp⟩
    · rw [if_neg hc] at h
      rcases Option.map_eq_some'.mp h with ⟨q, hq, rfl⟩
      obtain ⟨hdec, hmem⟩ := ih q hq
      refine ⟨by rw [List.cons_append, ← hdec], ?_⟩
      simp only [List.mem_cons, not_or]
      exact ⟨fun he => hc he.symm, hmem⟩

/-- Failing `splitOnFirst` means the separator does not occur. -/
theorem splitOnFirst_none (sep : Char) :
    ∀ l : List Char, splitOnFirst sep l = none → sep ∉ l := by
  intro l
  induction l with
  | nil => intro _; simp
  | cons c t ih =>
    intro h
    unfold splitOnFirst at h
    by_cases hc : c = sep
    · rw [if_pos hc] at h
      cases h
    · rw [if_neg hc] at h
      have ht : splitOnFirst sep t = none := by
        rcases hh : splitOnFirst sep t with - | q
        · rfl
        · rw [hh] at h
          cases h
      simp only [List.mem_cons, not_or]
      exact ⟨fun he => hc he.symm, ih ht⟩

/-- `splitOnFirst` at an explicit first occurrence. -/
theorem splitOnFirst_append (sep : Char) :
    ∀ (a b : List Char), sep ∉ a →
      splitOnFirst sep (a ++ sep :: b) = some (a, b) := by
  intro a
  induction a with
  | nil => intro b _; simp [splitOnFirst]
  | cons c t ih =>
    intro b hmem
    have hc : ¬c = sep := by
      intro h
      subst h
      exact hmem (List.mem_cons_self _ _)
    rw [List.cons_append]
    unfold splitOnFirst
    rw [if_neg hc, ih b (fun h => hmem (List.mem_cons_of_mem _ h))]
    rfl

/-- `splitOnFirst` with no occurrence returns `none`. -/
theorem splitOnFirst_of_not_mem (sep : Char) :
    ∀ l : List Char, sep ∉ l → splitOnFirst sep l = none := by
  intro l
  induction l with
  | nil => intro _; rfl
  | cons c t ih =>
    intro hmem
    have hc : ¬c = sep := by
      intro h
      subst h
      exact hmem (List.mem_cons_self _ _)
    unfold splitOnFirst
    rw [if_neg hc, ih (fun h => hmem (List.mem_cons_of_mem _ h))]
    rfl

/-- takeWhile/dropWhile over an append whose first part satisfies the
predicate and whose second part is empty or starts with a failure. -/
theorem takeWhile_dropWhile_append (p : Char → Bool) :
    ∀ (l1 l2 : List Char), (∀ c ∈ l1, p c = true) →
      (l2 = [] ∨ ∃ c t, l2 = c :: t ∧ p c = false) →
      (l1 ++ l2).takeWhile p = l1 ∧ (l1 ++ l2).dropWhile p = l2 := by
  intro l1
  induction l1 with
  | nil =>
    intro l2 _ h2
    rcases h2 with rfl | ⟨c, t, rfl, hc⟩
    · exact ⟨rfl, rfl⟩
    · simp [List.takeWhile_cons, List.dropWhile_cons, hc]
  | cons x t ih =>
    intro l2 h1 h2
    have hx : p x = true := h1 x (List.mem_cons_self _ _)
    obtain ⟨ht, hd⟩ := ih l2 (fun c hc => h1 c (List.mem_cons_of_mem _ hc)) h2
    rw [List.cons_append]
    constructor
    · rw [List.takeWhile_cons, if_pos hx, ht]
    · rw [List.dropWhile_cons, if_pos hx, hd]

/-- Upper-case ASCII as a code range. -/
theorem isAsciiUpper_iff (c : Char) :
    isAsciiUpper c = true ↔ 65 ≤ c.toNat ∧ c.toNat ≤ 90 := by
  unfold isAsciiUpper
  rw [Bool.and_eq_true, decide_eq_true_iff, decide_eq_true_iff,
    Char.le_def, Char.le_def]
  constructor
  · intro ⟨h1, h2⟩
    exact ⟨h1, h2⟩
  · intro ⟨h1, h2⟩
    exact ⟨h1, h2⟩

/-- Lower-case ASCII as a code range. -/
theorem isAsciiLower_iff (c : Char) :
    isAsciiLower c = true ↔ 97 ≤ c.toNat ∧ c.toNat ≤ 122 := by
  unfold isAsciiLower
  rw [Bool.and_eq_true, decide_eq_true_iff, decide_eq_true_iff,
    Char.le_def, Char.le_def]
  constructor
  · intro ⟨h1, h2⟩
    exact ⟨h1, h2⟩
  · intro ⟨h1, h2⟩
    exact ⟨h1, h2⟩

/-- ASCII digits as a code range. -/
theorem isAsciiDigit_iff (c : Char) :
    isAsciiDigit c = true ↔ 48 ≤ c.toNat ∧ c.toNat ≤ 57 := by
  unfold isAsciiDigit
  rw [Bool.and_eq_true, decide_eq_true_iff, decide_eq_true_iff,
    Char.le_def, Char.le_def]
  constructor
  · intro ⟨h1, h2⟩
    exact ⟨h1, h2⟩
  · intro ⟨h1, h2⟩
    exact ⟨h1, h2⟩

/-- Code of `Char.ofNat` below the surrogate range. -/
theorem toNat_ofNat_small (n : Nat) (h : n < 55296) :
    (Char.ofNat n).toNat = n := by
  have hv : Nat.isValidChar n := Or.inl h
  simp only [Char.ofNat, hv, dif_pos, Char.ofNatAux, Char.toNat,
    UInt32.toNat, BitVec.toNat_ofNatLt]

/-- Lowercasing an upper-case ASCII letter adds 32 to the code. -/
theorem lowerChar_toNat_of_upper (c : Char) (h : isAsciiUpper c = true) :
    (lowerChar c).toNat = c.toNat + 32 := by
  obtain ⟨h1, h2⟩ := (isAsciiUpper_iff c).mp h
  unfold lowerChar
  rw [if_pos h]
  exact toNat_ofNat_small _ (by omega)

/-- Lowercasing fixes everything that is not upper-case ASCII. -/
theorem lowerChar_eq_self (c : Char) (h : isAsciiUpper c = false) :
    lowerChar c = c := by
  unfold lowerChar
  rw [if_neg (by rw [h]; exact Bool.false_ne_true)]

/-- `lowerChar` output is never upper-case ASCII. -/
theorem isAsciiUpper_lowerChar (c : Char) :
    isAsciiUpper (lowerChar c) = false := by
  by_cases h : isAsciiUpper c = true
  · obtain ⟨h1, h2⟩ := (isAsciiUpper_iff c).mp h
    rw [Bool.eq_false_iff]
    intro hcon
    obtain ⟨h3, h4⟩ := (isAsciiUpper_iff _).mp hcon
    rw [lowerChar_toNat_of_upper c h] at h3 h4
    omega
  · rw [Bool.not_eq_true] at h
    rw [lowerChar_eq_self c h, h]

/-- `lowerChar` is idempotent. -/
theorem lowerChar_idem (c : Char) :
    lowerChar (lowerChar c) = lowerChar c :=
  lowerChar_eq_self _ (isAsciiUpper_lowerChar c)

/-- `lowerChar` preserves ASCII letters. -/
theorem isAsciiAlpha_lowerChar (c : Char) (h : isAsciiAlpha c = true) :
    isAsciiAlpha (lowerChar c) = true := by
  unfold isAsciiAlpha at h ⊢
  rcases (Bool.or_eq_true _ _).mp h with hl | hu
  · obtain ⟨h1, h2⟩ := (isAsciiLower_iff c).mp hl
    have hup : isAsciiUpper c = false := by
      rw [Bool.eq_false_iff]
      intro hcon
      obtain ⟨h3, h4⟩ := (isAsciiUpper_iff c).mp hcon
      omega
    rw [lowerChar_eq_self c hup, hl]
    rfl
  · have := lowerChar_toNat_of_upper c hu
    obtain ⟨h1, h2⟩ := (isAsciiUpper_iff c).mp hu
    have hlow : isAsciiLower (lowerChar c) = true := by
      rw [isAsciiLower_iff]
      omega
    rw [hlow]
    rfl

/-- `lowerChar` preserves scheme characters. -/
theorem isSchemeChar_lowerChar (c : Char) (h : isSchemeChar c = true) :
    isSchemeChar (lowerChar c) = true := by
  by_cases hu : isAsciiUpper c = true
  · unfold isSchemeChar
    have : isAsciiAlpha (lowerChar c) = true :=
      isAsciiAlpha_lowerChar c (by unfold isAsciiAlpha; rw [hu]; simp)
    rw [this]
    rfl
  · rw [Bool.not_eq_true] at hu
    rw [lowerChar_eq_self c hu]
    exact h

/-- `lowerChar` preserves printable ASCII. -/
theorem lowerChar_clean (c : Char) (h1 : 32 < c.toNat) (h2 : c.toNat < 128) :
    32 < (lowerChar c).toNat ∧ (lowerChar c).toNat < 128 := by
  by_cases hu : isAsciiUpper c = true
  · rw [lowerChar_toNat_of_upper c hu]
    obtain ⟨ha, hb⟩ := (isAsciiUpper_iff c).mp hu
    omega
  · rw [Bool.not_eq_true] at hu
    rw [lowerChar_eq_self c hu]
    exact ⟨h1, h2⟩

/-- Scheme characters are never ':'. -/
theorem isSchemeChar_ne_colon (c : Char) (h : isSchemeChar c = true) :
    ¬c = (':' : Char) := by
  intro hc
  subst hc
  exact absurd h (by decide)

/-- Code bounds of `hexDigitChar` below 16. -/
theorem hexDigitChar_toNat (n : Nat) (h : n < 16) :
    (48 ≤ (hexDigitChar n).toNat ∧ (hexDigitChar n).toNat ≤ 57) ∨
      (65 ≤ (hexDigitChar n).toNat ∧ (hexDigitChar n).toNat ≤ 70) := by
  unfold hexDigitChar
  by_cases hn : n < 10
  · rw [if_pos hn]
    have h0 : (('0' : Char).toNat + n) < 55296 := by
      have : ('0' : Char).toNat = 48 := rfl
      omega
    rw [toNat_ofNat_small _ h0]
    have : ('0' : Char).toNat = 48 := rfl
    omega
  · rw [if_neg hn]
    have h0 : (('A' : Char).toNat + (n - 10)) < 55296 := by
      have : ('A' : Char).toNat = 65 := rfl
      omega
    rw [toNat_ofNat_small _ h0]
    have : ('A' : Char).toNat = 65 := rfl
    omega

/-- Characters in the safe class are printable ASCII and none of the
URL delimiters '#', '?'. -/
theorem isAlwaysSafe_bounds (c : Char) (h : isAlwaysSafe c = true) :
    (32 < c.toNat ∧ c.toNat < 128) ∧ ¬c.toNat = 35 ∧ ¬c.toNat = 63 := by
  unfold isAlwaysSafe at h
  rcases (Bool.or_eq_true _ _).mp h with h5 | h6
  rotate_left
  · have : c = ('~' : Char) := of_decide_eq_true h6
    subst this
    refine ⟨by decide, by decide, by decide⟩
  rcases (Bool.or_eq_true _ _).mp h5 with h4 | h6
  rotate_left
  · have : c = ('-' : Char) := of_decide_eq_true h6
    subst this
    refine ⟨by decide, by decide, by decide⟩
  rcases (Bool.or_eq_true _ _).mp h4 with h3 | h6
  rotate_left
  · have : c = ('.' : Char) := of_decide_eq_true h6
    subst this
    refine ⟨by decide, by decide, by decide⟩
  rcases (Bool.or_eq_true _ _).mp h3 with h2 | h6
  rotate_left
  · have : c = ('_' : Char) := of_decide_eq_true h6
    subst this
    refine ⟨by decide, by decide, by decide⟩
  rcases (Bool.or_eq_true _ _).mp h2 with h1 | hd
  · unfold isAsciiAlpha at h1
    rcases (Bool.or_eq_true _ _).mp h1 with hl | hu
    · obtain ⟨ha, hb⟩ := (isAsciiLower_iff c).mp hl
      exact ⟨⟨by omega, by omega⟩, by omega, by omega⟩
    · obtain ⟨ha, hb⟩ := (isAsciiUpper_iff c).mp hu
      exact ⟨⟨by omega, by omega⟩, by omega, by omega⟩
  · obtain ⟨ha, hb⟩ := (isAsciiDigit_iff c).mp hd
    exact ⟨⟨by omega, by omega⟩, by omega, by omega⟩

/-- Character codes determine characters. -/
theorem char_ne_of_toNat_ne (c d : Char) (h : ¬c.toNat = d.toNat) :
    ¬c = d := by
  intro hc
  subst hc
  exact h rfl

/-- Every character emitted by `quotePlusChar` is printable ASCII and
is neither '#' nor '?'. -/
theorem quotePlusChar_chars (c d : Char) (hd : d ∈ quotePlusChar c) :
    (32 < d.toNat ∧ d.toNat < 128) ∧ ¬d = ('#' : Char) ∧
      ¬d = ('?' : Char) := by
  unfold quotePlusChar at hd
  by_cases hsafe : isAlwaysSafe c = true
  · rw [if_pos hsafe] at hd
    rcases List.mem_singleton.mp hd with rfl
    obtain ⟨hb, h35, h63⟩ := isAlwaysSafe_bounds _ hsafe
    refine ⟨hb, ?_, ?_⟩
    · refine char_ne_of_toNat_ne _ _ ?_
      have h2 : (('#' : Char)).toNat = 35 := rfl
      omega
    · refine char_ne_of_toNat_ne _ _ ?_
      have h2 : (('?' : Char)).toNat = 63 := rfl
      omega
  · rw [if_neg hsafe] at hd
    by_cases hsp : c = (' ' : Char)
    · rw [if_pos hsp] at hd
      rcases List.mem_singleton.mp hd with rfl
      exact ⟨by decide, by decide, by decide⟩
    · rw [if_neg hsp] at hd
      rcases List.mem_cons.mp hd with rfl | hd2
      · exact ⟨by decide, by decide, by decide⟩
      · have hhex : ∀ m, m < 16 →
            (32 < (hexDigitChar m).toNat ∧ (hexDigitChar m).toNat < 128) ∧
            ¬(hexDigitChar m) = ('#' : Char) ∧
            ¬(hexDigitChar m) = ('?' : Char) := by
          intro m hm
          have hr := hexDigitChar_toNat m hm
          have h35 : (('#' : Char)).toNat = 35 := rfl
          have h63 : (('?' : Char)).toNat = 63 := rfl
          refine ⟨?_, ?_, ?_⟩
          · rcases hr with ⟨ha, hb⟩ | ⟨ha, hb⟩ <;> exact ⟨by omega, by omega⟩
          · intro hcon
            rw [hcon] at hr
            rcases hr with ⟨ha, hb⟩ | ⟨ha, hb⟩ <;> omega
          · intro hcon
            rw [hcon] at hr
            rcases hr with ⟨ha, hb⟩ | ⟨ha, hb⟩ <;> omega
        rcases List.mem_cons.mp hd2 with rfl | hd3
        · exact hhex _ (Nat.mod_lt _ (by omega))
        · rcases List.mem_singleton.mp hd3 with rfl
          exact hhex _ (Nat.mod_lt _ (by omega))

/-- Character class of `quotePlus` output. -/
theorem quotePlus_chars (l : List Char) (d : Char) (hd : d ∈ quotePlus l) :
    (32 < d.toNat ∧ d.toNat < 128) ∧ ¬d = ('#' : Char) ∧
      ¬d = ('?' : Char) := by
  unfold quotePlus at hd
  rcases List.mem_flatten.mp hd with ⟨piece, hpiece, hdp⟩
  rcases List.mem_map.mp hpiece with ⟨c, -, rfl⟩
  exact quotePlusChar_chars c d hdp

/-- Character class of `joinAmp`: the separator or a piece character. -/
theorem joinAmp_chars (xs : List (List Char)) (d : Char)
    (hd : d ∈ joinAmp xs) : d = ('&' : Char) ∨ ∃ x ∈ xs, d ∈ x := by
  induction xs with
  | nil => cases hd
  | cons x t ih =>
    cases t with
    | nil =>
      exact Or.inr ⟨x, List.mem_singleton_self x, hd⟩
    | cons y t2 =>
      rw [show joinAmp (x :: y :: t2) = x ++ '&' :: joinAmp (y :: t2)
        from rfl] at hd
      rcases List.mem_append.mp hd with hx | hrest
      · exact Or.inr ⟨x, List.mem_cons_self _ _, hx⟩
      · rcases List.mem_cons.mp hrest with rfl | htail
        · exact Or.inl rfl
        · rcases ih htail with ha | ⟨z, hz, hdz⟩
          · exact Or.inl ha
          · exact Or.inr ⟨z, List.mem_cons_of_mem _ hz, hdz⟩

/-- Character class of the re-encoded query produced by `urlencodePairs`:
printable ASCII, never '#' and never '?'. -/
theorem urlencodePairs_chars (ps : List (List Char × List Char)) (d : Char)
    (hd : d ∈ urlencodePairs ps) :
    (32 < d.toNat ∧ d.toNat < 128) ∧ ¬d = ('#' : Char) ∧
      ¬d = ('?' : Char) := by
  unfold urlencodePairs at hd
  rcases joinAmp_chars _ d hd with rfl | ⟨x, hx, hdx⟩
  · exact ⟨by decide, by decide, by decide⟩
  · rcases List.mem_map.mp hx with ⟨p, -, rfl⟩
    rcases List.mem_append.mp hdx with hk | hv
    · exact quotePlus_chars _ d hk
    · rcases List.mem_cons.mp hv with rfl | hv2
      · exact ⟨by decide, by decide, by decide⟩
      · exact quotePlus_chars _ d hv2

/-- On printable input the `urlsplit` sanitation is the identity. -/
theorem cleanUrl_noop (l : List Char) (h : ∀ c ∈ l, 32 < c.toNat) :
    cleanUrl l = l := by
  unfold cleanUrl
  have hdrop : l.dropWhile isC0OrSpace = l := by
    cases l with
    | nil => rfl
    | cons c t =>
      rw [List.dropWhile_cons, if_neg]
      rw [Bool.not_eq_true]
      unfold isC0OrSpace
      have := h c (List.mem_cons_self _ _)
      simpa using by omega
  rw [hdrop]
  rw [List.filter_eq_self]
  intro c hc
  have hcc := h c hc
  unfold isUnsafeUrlByte
  have h9 : (('\t' : Char)).toNat = 9 := rfl
  have h13 : (('\r' : Char)).toNat = 13 := rfl
  have h10 : (('\n' : Char)).toNat = 10 := rfl
  simp only [Bool.not_eq_true', Bool.or_eq_false_iff, decide_eq_false_iff_not]
  refine ⟨⟨?_, ?_⟩, ?_⟩ <;>
    exact char_ne_of_toNat_ne _ _ (by omega)

/-- The head of a `dropWhile` remainder fails the predicate. -/
theorem dropWhile_head_false (p : Char → Bool) :
    ∀ (l : List Char) (c : Char) (t : List Char),
      l.dropWhile p = c :: t → p c = false := by
  intro l
  induction l with
  | nil => intro c t h; cases h
  | cons x xs ih =>
    intro c t h
    rw [List.dropWhile_cons] at h
    by_cases hx : p x = true
    · rw [if_pos hx] at h
      exact ih c t h
    · rw [if_neg hx] at h
      have hxc : x = c := (List.cons.inj h).1
      rw [← hxc]
      exact Bool.eq_false_iff.mpr hx

/-- Case analysis of `splitScheme`. -/
theorem splitScheme_facts (v : List Char) :
    (splitScheme v = ([], v)) ∨
    (∃ pre rest, splitOnFirst ':' v = some (pre, rest) ∧ pre ≠ [] ∧
      isAsciiAlpha (pre.headD ' ') = true ∧ pre.all isSchemeChar = true ∧
      splitScheme v = (pre.map lowerChar, rest)) := by
  rcases hsp : splitOnFirst ':' v with - | p
  · left
    unfold splitScheme
    rw [hsp]
  · obtain ⟨a, b⟩ := p
    have hred : splitScheme v =
        (if !a.isEmpty && isAsciiAlpha (a.headD ' ') && a.all isSchemeChar
         then (a.map lowerChar, b) else ([], v)) := by
      unfold splitScheme
      rw [hsp]
    by_cases hcond :
        (!a.isEmpty && isAsciiAlpha (a.headD ' ') && a.all isSchemeChar) =
          true
    · have hcond2 := hcond
      rw [Bool.and_eq_true, Bool.and_eq_true] at hcond2
      right
      refine ⟨a, b, rfl, ?_, hcond2.1.2, hcond2.2,
        by rw [hred, if_pos hcond]⟩
      intro ha
      rw [ha] at hcond2
      simp at hcond2
    · left
      rw [hred, if_neg hcond]

/-- `splitScheme` at an explicit already-lowercase scheme prefix. -/
theorem splitScheme_explicit (scheme rest : List Char)
    (hne : scheme ≠ [])
    (hcolon : (':' : Char) ∉ scheme)
    (hhead : isAsciiAlpha (scheme.headD ' ') = true)
    (hall : scheme.all isSchemeChar = true)
    (hlower : scheme.map lowerChar = scheme) :
    splitScheme (scheme ++ ':' :: rest) = (scheme, rest) := by
  have hred : splitScheme (scheme ++ ':' :: rest) =
      (if !scheme.isEmpty && isAsciiAlpha (scheme.headD ' ') &&
          scheme.all isSchemeChar
       then (scheme.map lowerChar, rest)
       else ([], scheme ++ ':' :: rest)) := by
    unfold splitScheme
    rw [splitOnFirst_append _ _ _ hcolon]
  rw [hred, if_pos, hlower]
  rw [Bool.and_eq_true, Bool.and_eq_true]
  refine ⟨⟨?_, hhead⟩, hall⟩
  cases scheme with
  | nil => exact absurd rfl hne
  | cons a t => rfl

/-- `splitScheme` on a string starting with '/'. -/
theorem splitScheme_slash (l : List Char) :
    splitScheme ('/' :: l) = ([], '/' :: l) := by
  rcases splitScheme_facts ('/' :: l) with h | ⟨pre, rest, hsp, hne, hhead,
    hall, hres⟩
  · exact h
  · obtain ⟨hdec, -⟩ := splitOnFirst_some ':' _ _ hsp
    exfalso
    cases pre with
    | nil =>
      simp only [List.nil_append] at hdec
      have hq : ('/' : Char) = (':' : Char) := (List.cons.inj hdec).1
      exact absurd hq (by decide)
    | cons a t =>
      rw [List.cons_append] at hdec
      have ha : ('/' : Char) = a := (List.cons.inj hdec).1
      have hh2 : isAsciiAlpha a = true := hhead
      rw [← ha] at hh2
      exact absurd hh2 (by decide)

/-- Facts about the netloc stage. -/
theorem urlsplitNetloc_facts (u1 : List Char) :
    (∀ c ∈ (urlsplitNetloc u1).1, notNetlocEnd c = true) ∧
    (∀ c ∈ (urlsplitNetloc u1).1, c ∈ u1) ∧
    (∀ c ∈ (urlsplitNetloc u1).2, c ∈ u1) ∧
    ((urlsplitNetloc u1).1 ≠ [] → (urlsplitNetloc u1).2 = [] ∨
      ∃ c t, (urlsplitNetloc u1).2 = c :: t ∧ notNetlocEnd c = false) := by
  unfold urlsplitNetloc
  by_cases ht : u1.take 2 = [('/' : Char), ('/' : Char)]
  · rw [if_pos ht]
    refine ⟨?_, ?_, ?_, ?_⟩
    · intro c hc
      exact List.mem_takeWhile_imp hc
    · intro c hc
      exact List.drop_subset 2 u1
        ((List.takeWhile_sublist _).subset hc)
    · intro c hc
      exact List.drop_subset 2 u1
        ((List.dropWhile_sublist _).subset hc)
    · intro _
      rcases hd : (u1.drop 2).dropWhile notNetlocEnd with - | ⟨c, t⟩
      · exact Or.inl rfl
      · exact Or.inr ⟨c, t, rfl, dropWhile_head_false _ _ c t hd⟩
  · rw [if_neg ht]
    refine ⟨?_, ?_, ?_, ?_⟩
    · intro c hc
      cases hc
    · intro c hc
      cases hc
    · intro c hc
      exact hc
    · intro hcon
      exact absurd rfl hcon

/-- Facts about the fragment stage. -/
theorem splitFragment_facts (v : List Char) :
    (('#' : Char) ∉ (splitFragment v).1) ∧
    (∃ t, v = (splitFragment v).1 ++ t) := by
  unfold splitFragment
  rcases hf : splitOnFirst '#' v with - | p
  · exact ⟨splitOnFirst_none '#' v hf, [], by simp⟩
  · obtain ⟨hdec, hmem⟩ := splitOnFirst_some '#' v p hf
    exact ⟨hmem, '#' :: p.2, hdec⟩

/-- Facts about the query stage. -/
theorem splitQuery_facts (v : List Char) :
    (('?' : Char) ∉ (splitQuery v).1) ∧
    (∃ t, v = (splitQuery v).1 ++ t) := by
  unfold splitQuery
  rcases hf : splitOnFirst '?' v with - | p
  · exact ⟨splitOnFirst_none '?' v hf, [], by simp⟩
  · obtain ⟨hdec, hmem⟩ := splitOnFirst_some '?' v p hf
    exact ⟨hmem, '?' :: p.2, hdec⟩

/-- What a successful `urlsplit` guarantees about its components: the
path holds neither '#' nor '?', the netloc no '/', '?' or '#'; with a
non-empty netloc the path is empty or starts with '/'; the scheme is
already lowercase, non-empty only when it is a valid scheme; every
component character stems from the sanitized input (schemes up to
lowercasing); and the netloc's brackets are balanced. -/
theorem urlsplit_ok_facts (u : List Char) (P : UrlParts)
    (h : urlsplitE u = Except.ok P) :
    (('#' : Char) ∉ P.path) ∧ (('?' : Char) ∉ P.path) ∧
    (∀ c ∈ P.netloc, notNetlocEnd c = true) ∧
    (P.netloc ≠ [] → P.path = [] ∨ ∃ t, P.path = '/' :: t) ∧
    (P.scheme.map lowerChar = P.scheme) ∧
    (P.scheme ≠ [] → isAsciiAlpha (P.scheme.headD ' ') = true ∧
      P.scheme.all isSchemeChar = true) ∧
    (∀ c ∈ P.netloc, c ∈ cleanUrl u) ∧
    (∀ c ∈ P.path, c ∈ cleanUrl u) ∧
    (∀ c ∈ P.scheme, ∃ e, e ∈ cleanUrl u ∧ c = lowerChar e) ∧
    ((P.netloc.contains '[') = (P.netloc.contains ']')) := by
  simp only [urlsplitE] at h
  by_cases hbr : (((urlsplitNetloc (splitScheme (cleanUrl u)).2).1.contains
      '[' != (urlsplitNetloc (splitScheme (cleanUrl u)).2).1.contains ']') =
      true)
  · rw [if_pos hbr] at h
    cases h
  · rw [if_neg hbr] at h
    injection h with h2
    have hsch : P.scheme = (splitScheme (cleanUrl u)).1 := by rw [← h2]
    have hnet : P.netloc =
        (urlsplitNetloc (splitScheme (cleanUrl u)).2).1 := by rw [← h2]
    have hpath : P.path = (splitQuery (splitFragment
        (urlsplitNetloc (splitScheme (cleanUrl u)).2).2).1).1 := by
      rw [← h2]
    rw [hsch, hnet, hpath]
    obtain ⟨hfF, tf, htf⟩ :=
      splitFragment_facts (urlsplitNetloc (splitScheme (cleanUrl u)).2).2
    obtain ⟨hqF, tq, htq⟩ := splitQuery_facts
      (splitFragment (urlsplitNetloc (splitScheme (cleanUrl u)).2).2).1
    obtain ⟨hn1, hn2, hn3, hn4⟩ :=
      urlsplitNetloc_facts (splitScheme (cleanUrl u)).2
    have hpathA : ('#' : Char) ∉
        (splitQuery (splitFragment
          (urlsplitNetloc (splitScheme (cleanUrl u)).2).2).1).1 := by
      intro hmem
      exact hfF (htq ▸ List.mem_append_left tq hmem)
    have hu1sub : ∀ c ∈ (splitScheme (cleanUrl u)).2, c ∈ cleanUrl u := by
      rcases splitScheme_facts (cleanUrl u) with hs |
        ⟨pre, rest, hsp, hprene, hhead, hall, hs⟩
      · rw [hs]
        intro c hc
        exact hc
      · rw [hs]
        intro c hc
        obtain ⟨hdec, -⟩ := splitOnFirst_some ':' _ _ hsp
        rw [hdec]
        exact List.mem_append_right pre (List.mem_cons_of_mem _ hc)
    have hpathsub : ∀ c ∈ (splitQuery (splitFragment
        (urlsplitNetloc (splitScheme (cleanUrl u)).2).2).1).1,
        c ∈ cleanUrl u := by
      intro c hc
      have hq1 : c ∈ (splitFragment
          (urlsplitNetloc (splitScheme (cleanUrl u)).2).2).1 :=
        htq ▸ List.mem_append_left tq hc
      have hq2 : c ∈ (urlsplitNetloc (splitScheme (cleanUrl u)).2).2 :=
        htf ▸ List.mem_append_left tf hq1
      exact hu1sub c (hn3 c hq2)
    refine ⟨hpathA, hqF, hn1, ?_, ?_, ?_, ?_, hpathsub, ?_, ?_⟩
    · -- leading slash under non-empty netloc
      intro hnne
      rcases hpz : (splitQuery (splitFragment
          (urlsplitNetloc (splitScheme (cleanUrl u)).2).2).1).1 with
        - | ⟨c, t⟩
      · exact Or.inl rfl
      · right
        have hu2 : (urlsplitNetloc (splitScheme (cleanUrl u)).2).2 =
            c :: (t ++ (tq ++ tf)) := by
          rw [htf, htq, hpz]
          simp
        rcases hn4 hnne with hz | ⟨c2, t2, hz, hcf⟩
        · rw [hz] at hu2
          cases hu2
        · rw [hz] at hu2
          have hc2 : c2 = c := (List.cons.inj hu2).1
          unfold notNetlocEnd at hcf
          rw [Bool.not_eq_false'] at hcf
          rw [hc2] at hcf
          rcases (Bool.or_eq_true _ _).mp hcf with hcf2 | hcf3
          · rcases (Bool.or_eq_true _ _).mp hcf2 with hslash | hques
            · have hcs : c = ('/' : Char) := of_decide_eq_true hslash
              exact ⟨t, by rw [hcs]⟩
            · have hcq : c = ('?' : Char) := of_decide_eq_true hques
              exfalso
              apply hqF
              rw [hpz, hcq]
              exact List.mem_cons_self _ _
          · have hch : c = ('#' : Char) := of_decide_eq_true hcf3
            exfalso
            apply hpathA
            rw [hpz, hch]
            exact List.mem_cons_self _ _
    · -- scheme already lowercase
      rcases splitScheme_facts (cleanUrl u) with hs |
        ⟨pre, rest, hsp, hprene, hhead, hall, hs⟩
      · rw [hs]
        rfl
      · rw [hs]
        simp only [List.map_map]
        apply List.map_congr_left
        intro c _
        exact lowerChar_idem c
    · -- valid scheme when non-empty
      intro hne
      rcases splitScheme_facts (cleanUrl u) with hs |
        ⟨pre, rest, hsp, hprene, hhead, hall, hs⟩
      · rw [hs] at hne
        exact absurd rfl hne
      · rw [hs]
        cases pre with
        | nil => exact absurd rfl hprene
        | cons a t =>
          constructor
          · exact isAsciiAlpha_lowerChar a hhead
          · rw [List.all_eq_true] at hall ⊢
            intro y hy
            rcases List.mem_map.mp hy with ⟨x, hx, rfl⟩
            exact isSchemeChar_lowerChar x (hall x hx)
    · -- netloc characters come from the sanitized input
      intro c hc
      exact hu1sub c (hn2 c hc)
    · -- scheme characters are lowercased input characters
      intro c hc
      rcases splitScheme_facts (cleanUrl u) with hs |
        ⟨pre, rest, hsp, hprene, hhead, hall, hs⟩
      · rw [hs] at hc
        cases hc
      · rw [hs] at hc
        rcases List.mem_map.mp hc with ⟨x, hx, rfl⟩
        obtain ⟨hdec, -⟩ := splitOnFirst_some ':' _ _ hsp
        exact ⟨x, by rw [hdec]; exact List.mem_append_left _ hx, rfl⟩
    · -- balanced brackets
      rcases hx : (urlsplitNetloc
          (splitScheme (cleanUrl u)).2).1.contains '[' <;>
        rcases hy : (urlsplitNetloc
          (splitScheme (cleanUrl u)).2).1.contains ']'
      · rfl
      · rw [hx, hy] at hbr
        exact absurd rfl hbr
      · rw [hx, hy] at hbr
        exact absurd rfl hbr
      · rfl

/-- Re-parsing an unsplit authority URL recovers the components: the
inverse direction of `urlsplit` on the output shape produced by
`normalize_url` when the netloc is non-empty. -/
theorem reparse_authority (scheme netloc path q : List Char)
    (hsE : scheme.map lowerChar = scheme)
    (hsF : scheme ≠ [] → isAsciiAlpha (scheme.headD ' ') = true ∧
      scheme.all isSchemeChar = true)
    (hnc : ∀ c ∈ netloc, notNetlocEnd c = true)
    (hnb : (netloc.contains '[') = (netloc.contains ']'))
    (hn : netloc ≠ [])
    (hp : path = [] ∨ ∃ t, path = '/' :: t)
    (hpq : ('?' : Char) ∉ path) (hpf : ('#' : Char) ∉ path)
    (hqc : ∀ c ∈ q, (32 < c.toNat ∧ c.toNat < 128) ∧
      ¬c = ('#' : Char) ∧ ¬c = ('?' : Char))
    (hclean : ∀ c ∈ scheme ++ netloc ++ path, 32 < c.toNat ∧ c.toNat < 128) :
    urlsplitE (urlunsplitChars scheme netloc path q []) =
      Except.ok { scheme := scheme, netloc := netloc, path := path,
                  query := q, fragment := [] } := by
  have hcolon : (':' : Char) ∉ scheme := by
    intro hc
    by_cases hs0 : scheme = []
    · rw [hs0] at hc
      cases hc
    · have hall := (hsF hs0).2
      rw [List.all_eq_true] at hall
      exact isSchemeChar_ne_colon _ (hall _ hc) rfl
  have hcore : ∀ qp qv : List Char, (qp = [] ∨ qp = '?' :: q) →
      splitQuery (path ++ qp) = (path, qv) →
      urlsplitE ((if scheme ≠ []
          then scheme ++ ':' :: ('/' :: '/' :: (netloc ++ (path ++ qp)))
          else '/' :: '/' :: (netloc ++ (path ++ qp)))) =
        Except.ok { scheme := scheme, netloc := netloc, path := path,
                    query := qv, fragment := [] } := by
    intro qp qv hqp0 hqsplit
    have hnofrag : ('#' : Char) ∉ path ++ qp := by
      intro hc
      rcases List.mem_append.mp hc with hcp | hcq
      · exact hpf hcp
      · rcases hqp0 with rfl | rfl
        · cases hcq
        · rcases List.mem_cons.mp hcq with hh | hq2
          · exact absurd hh.symm (by decide)
          · exact (hqc _ hq2).2.1 rfl
    have hqclean : ∀ c ∈ path ++ qp, 32 < c.toNat := by
      intro c hc
      rcases List.mem_append.mp hc with hcp | hcq
      · exact (hclean c (List.mem_append_right _ hcp)).1
      · rcases hqp0 with rfl | rfl
        · cases hcq
        · rcases List.mem_cons.mp hcq with rfl | hq2
          · decide
          · exact (hqc _ hq2).1.1
    have hqhead : path ++ qp = [] ∨
        ∃ c t, path ++ qp = c :: t ∧ notNetlocEnd c = false := by
      rcases hp with rfl | ⟨t, rfl⟩
      · rcases hqp0 with rfl | rfl
        · exact Or.inl rfl
        · exact Or.inr ⟨'?', q, rfl, by decide⟩
      · exact Or.inr ⟨'/', t ++ qp, rfl, by decide⟩
    have hEclean : ∀ c ∈ ('/' : Char) :: '/' ::
        (netloc ++ (path ++ qp)), 32 < c.toNat := by
      intro c hc
      rcases List.mem_cons.mp hc with rfl | hc2
      · decide
      rcases List.mem_cons.mp hc2 with rfl | hc3
      · decide
      rcases List.mem_append.mp hc3 with hcn | hcp
      · exact (hclean c (List.mem_append_left _
          (List.mem_append_right _ hcn))).1
      · exact hqclean c hcp
    have hnet2 : urlsplitNetloc ('/' :: '/' :: (netloc ++ (path ++ qp))) =
        (netloc, path ++ qp) := by
      obtain ⟨ht, hd⟩ := takeWhile_dropWhile_append notNetlocEnd netloc
        (path ++ qp) hnc hqhead
      unfold urlsplitNetloc
      rw [if_pos (show List.take 2 ('/' :: '/' :: (netloc ++ (path ++ qp))) =
        [('/' : Char), ('/' : Char)] from rfl)]
      show ((netloc ++ (path ++ qp)).takeWhile notNetlocEnd,
        (netloc ++ (path ++ qp)).dropWhile notNetlocEnd) =
        (netloc, path ++ qp)
      rw [ht, hd]
    have hfrag2 : splitFragment (path ++ qp) = (path ++ qp, []) := by
      unfold splitFragment
      rw [splitOnFirst_of_not_mem '#' _ hnofrag]
    by_cases hs0 : scheme = []
    · rw [if_neg (fun hcon => hcon hs0)]
      have hclean2 : cleanUrl ('/' :: '/' :: (netloc ++ (path ++ qp))) =
          '/' :: '/' :: (netloc ++ (path ++ qp)) :=
        cleanUrl_noop _ hEclean
      have hss : splitScheme ('/' :: '/' :: (netloc ++ (path ++ qp))) =
          ([], '/' :: '/' :: (netloc ++ (path ++ qp))) :=
        splitScheme_slash _
      simp only [urlsplitE, hclean2, hss, hnet2, hfrag2, hqsplit]
      rw [if_neg]
      · rw [hs0]
      · rw [hnb]
        simp
    · rw [if_pos hs0]
      have hoAll : ∀ c ∈ scheme ++ ':' ::
          ('/' :: '/' :: (netloc ++ (path ++ qp))), 32 < c.toNat := by
        intro c hc
        rcases List.mem_append.mp hc with hcs | hcr
        · exact (hclean c (List.mem_append_left _
            (List.mem_append_left _ hcs))).1
        rcases List.mem_cons.mp hcr with rfl | hcr2
        · decide
        · exact hEclean c hcr2
      have hclean2 : cleanUrl (scheme ++ ':' ::
          ('/' :: '/' :: (netloc ++ (path ++ qp)))) =
          scheme ++ ':' :: ('/' :: '/' :: (netloc ++ (path ++ qp))) :=
        cleanUrl_noop _ hoAll
      have hss : splitScheme (scheme ++ ':' ::
          ('/' :: '/' :: (netloc ++ (path ++ qp)))) =
          (scheme, '/' :: '/' :: (netloc ++ (path ++ qp))) :=
        splitScheme_explicit scheme _ hs0 hcolon (hsF hs0).1 (hsF hs0).2 hsE
      simp only [urlsplitE, hclean2, hss, hnet2, hfrag2, hqsplit]
      rw [if_neg]
      · rw [hnb]
        simp
  have hinner : (if path ≠ [] ∧ path.take 1 ≠ [('/' : Char)]
      then '/' :: path else path) = path := by
    rcases hp with rfl | ⟨t, rfl⟩
    · rw [if_neg]
      intro hcon
      exact hcon.1 rfl
    · rw [if_neg]
      intro hcon
      exact hcon.2 rfl
  have hfrneg : ¬(([] : List Char) ≠ []) := fun h => h rfl
  have hmain : urlunsplitChars scheme netloc path q [] =
      (if q ≠ []
       then (if scheme ≠ []
             then scheme ++ ':' :: ('/' :: '/' :: (netloc ++ path))
             else '/' :: '/' :: (netloc ++ path)) ++ '?' :: q
       else (if scheme ≠ []
             then scheme ++ ':' :: ('/' :: '/' :: (netloc ++ path))
             else '/' :: '/' :: (netloc ++ path))) := by
    simp only [urlunsplitChars]
    rw [if_pos (Or.inl hn), hinner, if_neg hfrneg]
  by_cases hq0 : q = []
  · rw [hmain, if_neg (fun h => h hq0)]
    rw [show netloc ++ path = netloc ++ (path ++ []) from
      by rw [List.append_nil]]
    have hqsplit : splitQuery (path ++ []) = (path, []) := by
      rw [List.append_nil]
      unfold splitQuery
      rw [splitOnFirst_of_not_mem '?' path hpq]
    rw [show q = ([] : List Char) from hq0]
    exact hcore [] [] (Or.inl rfl) hqsplit
  · rw [hmain, if_pos hq0]
    have hassoc : (if scheme ≠ []
        then scheme ++ ':' :: ('/' :: '/' :: (netloc ++ path))
        else '/' :: '/' :: (netloc ++ path)) ++ '?' :: q =
        (if scheme ≠ []
         then scheme ++ ':' :: ('/' :: '/' :: (netloc ++ (path ++ '?' :: q)))
         else '/' :: '/' :: (netloc ++ (path ++ '?' :: q))) := by
      by_cases hs0 : scheme = []
      · rw [if_neg (fun hcon => hcon hs0), if_neg (fun hcon => hcon hs0)]
        simp [List.append_assoc]
      · rw [if_pos hs0, if_pos hs0]
        simp [List.append_assoc]
    rw [hassoc]
    have hqsplit : splitQuery (path ++ '?' :: q) = (path, q) := by
      unfold splitQuery
      rw [splitOnFirst_append '?' path q hpq]
    exact hcore ('?' :: q) q (Or.inr rfl) hqsplit

/-- The sanitation only removes characters. -/
theorem cleanUrl_subset (u : List Char) (c : Char) (hc : c ∈ cleanUrl u) :
    c ∈ u := by
  unfold cleanUrl at hc
  exact (List.dropWhile_sublist _).subset (List.mem_of_mem_filter hc)

/-- `normalize_url` on a printable authority URL preserves the parsed
path (and scheme and netloc): re-parsing the normalized URL yields the
original components with the fragment dropped and the query
re-encoded. -/
theorem normalize_path_preserved (u : List Char) (P : UrlParts)
    (hcl : ∀ c ∈ u, CleanChar c)
    (hok : urlsplitE u = Except.ok P)
    (hn : P.netloc ≠ []) :
    urlsplitE (normalizeUrlChars u) =
      Except.ok { scheme := P.scheme, netloc := P.netloc, path := P.path,
                  query := urlencodePairs
                    ((parseQslPairs P.query).filter keepQueryPair),
                  fragment := [] } := by
  obtain ⟨hA, hB, hC, hD, hE, hF, hG1, hG2, hG3, hH⟩ :=
    urlsplit_ok_facts u P hok
  have hu0 : u ≠ [] := by
    intro h0
    rw [h0] at hok
    have h1 : urlsplitE [] =
        Except.ok { scheme := [], netloc := [], path := [], query := [],
                    fragment := ([] : List Char) } := rfl
    rw [h1] at hok
    have h2 := Except.ok.inj hok
    rw [← h2] at hn
    exact hn rfl
  have hemp : u.isEmpty = false := by
    cases u with
    | nil => exact absurd rfl hu0
    | cons a t => rfl
  have hnorm : normalizeUrlChars u =
      urlunsplitChars P.scheme P.netloc P.path
        (urlencodePairs ((parseQslPairs P.query).filter keepQueryPair))
        [] := by
    unfold normalizeUrlChars
    rw [hemp, hok]
    rfl
  rw [hnorm]
  have hcleanS : ∀ c ∈ P.scheme ++ P.netloc ++ P.path,
      32 < c.toNat ∧ c.toNat < 128 := by
    intro c hc
    rcases List.mem_append.mp hc with hsn | hcp
    · rcases List.mem_append.mp hsn with hcs | hcn
      · obtain ⟨e, hce, rfl⟩ := hG3 c hcs
        obtain ⟨he1, he2⟩ := hcl e (cleanUrl_subset u e hce)
        exact lowerChar_clean e he1 he2
      · exact hcl c (cleanUrl_subset u c (hG1 c hcn))
    · exact hcl c (cleanUrl_subset u c (hG2 c hcp))
  exact reparse_authority P.scheme P.netloc P.path _ hE hF hC hH hn (hD hn)
    hB hA (fun c hc => urlencodePairs_chars _ c hc) hcleanS

/-- Counterexample to C9 as stated: the authority-less URLs `https:y`
and `https:/y` have distinct paths (`y` vs `/y`) yet normalize to the
same key `https:///y`. -/
theorem c9_counterexample :
    ¬pathOf (("https:y" : String).data) =
      pathOf (("https:/y" : String).data) ∧
    normalize_url ("https:y") = normalize_url ("https:/y") := by
  exact ⟨by decide, by rfl⟩

/-- Claim C9 (amended): `https://x/y?utm_source=z#frag` and
`https://x/y` normalize to equal keys, and for URLs in authority form
(printable ASCII, parsing with a non-empty netloc — the
`scheme://host/...` shape every crawled chapter URL has) distinct paths
always yield distinct normalized keys.  Without the authority
restriction the second half fails (see the counterexample). -/
theorem c9_normalize_keys :
    (normalize_url ("https://x/y?utm_source=z#frag") =
      normalize_url ("https://x/y")) ∧
    (∀ u1 u2 : List Char, WfAuthorityUrl u1 → WfAuthorityUrl u2 →
      ¬pathOf u1 = pathOf u2 →
      ¬normalizeUrlChars u1 = normalizeUrlChars u2) := by
  refine ⟨by rfl, ?_⟩
  intro u1 u2 hw1 hw2 hp hcon
  obtain ⟨hc1, P1, hok1, hn1⟩ := hw1
  obtain ⟨hc2, P2, hok2, hn2⟩ := hw2
  have h1 := normalize_path_preserved u1 P1 hc1 hok1 hn1
  have h2 := normalize_path_preserved u2 P2 hc2 hok2 hn2
  rw [hcon] at h1
  have h3 := Except.ok.inj (h2.symm.trans h1)
  apply hp
  have hpath1 : pathOf u1 = P1.path := by
    unfold pathOf
    rw [hok1]
  have hpath2 : pathOf u2 = P2.path := by
    unfold pathOf
    rw [hok2]
  rw [hpath1, hpath2]
  exact (congrArg UrlParts.path h3).symm

/-- Witness for C9 (amended) on two authority URLs with distinct
paths. -/
theorem c9_normalize_keys_witness :
    ¬normalizeUrlChars (("https://x/a" : String).data) =
      normalizeUrlChars (("https://x/b" : String).data) := by
  apply c9_normalize_keys.2
  · refine ⟨by decide, ?_⟩
    refine ⟨{ scheme := ("https" : String).data, netloc := ("x" : String).data,
              path := ("/a" : String).data, query := [], fragment := [] },
            by rfl, by decide⟩
  · refine ⟨by decide, ?_⟩
    refine ⟨{ scheme := ("https" : String).data, netloc := ("x" : String).data,
              path := ("/b" : String).data, query := [], fragment := [] },
            by rfl, by decide⟩
  · decide
